import Mathlib

/-!
# Cfg: configuration session of an ESP8266 application

A shallow embedding of `src/src/Cfg.cpp` (class `Cfg`, declared in
`src/src/Cfg.h`) together with the persistent field store `Nvm` it uses.

* A `char` is a `Char`; a `char*` is the list of bytes found at that address;
  the C string it denotes is read up to the first terminator (`cstr`).
* An `int` is an `Int` between `-2^31` and `INT_MAX`; an increment past
  `INT_MAX` has no defined result (`incr` yields `none`).
* Class `Nvm` (header `Nvm.h`) is not among the sources: it is modelled from the
  specification of the Persistent Field Store. The constant `NVM_MAX_LENZ` of
  that header is a parameter of the development.
* Serial logging is left out; of a page sent by the web server the status
  code, the task line and the list composed by `/save` are recorded.
-/

namespace CfgLib

/-! ## Characters, C strings and buffers -/

/-- The terminator of a C string. -/
def NUL : Char := Char.ofNat 0

/-- The C string denoted by a `char*`: the bytes before the first terminator. -/
def cstr (p : List Char) : List Char := p.takeWhile (fun c => c != NUL)

/-- The buffer at `s.c_str()` for an Arduino `String` holding `s`: the characters and
the terminator. -/
def c_str (s : List Char) : List Char := s ++ [NUL]

/-- The buffer `dst` after `memcpy(dst, src, n)`. -/
def memcpy (dst src : List Char) (n : Nat) : List Char := src.take n ++ dst.drop n

/-- The buffer `dst` after the C string at `src` and its terminator are copied to its start. -/
def strcpy (dst src : List Char) : List Char :=
  cstr src ++ NUL :: dst.drop ((cstr src).length + 1)

/-! ## Field schema -/

/-- One entry of the `fields` array (`NvmField`): name, default value, maximum length
and description. An entry of length 0 is a header of the web page. The closing entry
of zeros is the end of the list. -/
structure NvmField where
  name : List Char
  dft : List Char
  len : Nat
  extra : List Char
deriving DecidableEq

/-- The default fields: ssid and password of a wifi network. -/
def CfgFieldsDefault : List NvmField :=
  [ { name := "ssid".toList, dft := "MySSID".toList, len := 32,
      extra := "The ssid of the wifi network this device should connect to.".toList },
    { name := "password".toList, dft := "MyPassword".toList, len := 32,
      extra := "The password of the wifi network this device should connect to.".toList } ]

/-! ## Persistent field store -/

/-- Modelled from the spec: the non-volatile medium of class `Nvm` (absent from the
sources). It holds the layout signature written by the last schema (field count and
total size) and, per field, the region of that field: `some v` when the region passes
the validity check and holds the string `v`, `none` when it does not (never written). -/
structure Eeprom where
  signature : Option (Nat × Nat)
  regions : List (Option (List Char))
deriving DecidableEq

/-- Modelled from the spec: the store object of class `Nvm` (absent from the sources),
which owns the layout derived from the schema: the real (non-header) fields in schema
order; field `i` reserves `len + 1` bytes. -/
structure Nvm where
  fields : List NvmField
deriving DecidableEq

/-- Modelled from the spec: the layout signature of class `Nvm`, the number of real
fields and the total reserved size. -/
def Nvm.signature (n : Nvm) : Nat × Nat :=
  (n.fields.length, (n.fields.map (fun f => f.len + 1)).sum)

/-- Modelled from the spec: `initialize(schema)` of class `Nvm` (its constructor). The
layout keeps the non-header entries. When the signature found on the medium differs
from the one of the layout, the store is uninitialized: every region is invalid. -/
def Nvm.new (fields : List NvmField) (e : Eeprom) : Nvm × Eeprom :=
  let n : Nvm := { fields := fields.filter (fun f => f.len != 0) }
  if e.signature = some n.signature ∧ e.regions.length = n.fields.length then (n, e)
  else (n, { signature := some n.signature, regions := List.replicate n.fields.length none })

/-- Modelled from the spec: `count()` of class `Nvm`, the number of real fields. -/
def Nvm.count (n : Nvm) : Int := n.fields.length

/-- Modelled from the spec: the linear scan of `find` of class `Nvm`, giving the index,
counted from `ix`, of the first field whose name is the string `name`. -/
def Nvm.scan : List NvmField → List Char → Int → Int
  | [], _, _ => -1
  | f :: fs, name, ix => if cstr f.name = name then ix else Nvm.scan fs name (ix + 1)

/-- Modelled from the spec: `find(name)` of class `Nvm`, a case-sensitive linear scan
giving the index of the first match, or -1 (`NotFound`). -/
def Nvm.find (n : Nvm) (name : List Char) : Int := Nvm.scan n.fields (cstr name) 0

/-- Modelled from the spec: `get(index, outBuffer)` of class `Nvm`. Copies the stored
string into the buffer of the caller; a region that fails the validity check gives the
default of the field; an index out of range gives the empty string. -/
def Nvm.get (n : Nvm) (e : Eeprom) (ix : Int) (val : List Char) : List Char :=
  if 0 ≤ ix ∧ ix < n.count then
    match e.regions.getD ix.toNat none with
    | some v => strcpy val v
    | none => strcpy val ((n.fields.getD ix.toNat ⟨[], [], 0, []⟩).dft)
  else strcpy val []

/-- Modelled from the spec: `put(index, value)` of class `Nvm`. Truncates the string to
`len` bytes, writes it to the region of the field and marks the region valid; an index
out of range writes nothing. The medium accepts every write. -/
def Nvm.put (n : Nvm) (e : Eeprom) (ix : Int) (val : List Char) : Eeprom :=
  if 0 ≤ ix ∧ ix < n.count then
    let len := (n.fields.getD ix.toNat ⟨[], [], 0, []⟩).len
    { e with regions := e.regions.set ix.toNat (some ((cstr val).take len)) }
  else e

/-! ## Platform constants and machine integers -/

/-- The time between led flashes in `check`, in milliseconds. -/
def CFG_FLASH_SETUP : Nat := 50

/-- The time between led flashes in `loop`, in milliseconds. -/
def CFG_FLASH_LOOP : Nat := 999

/-- Pin level `HIGH` of the Arduino core. -/
def HIGH : Int := 1

/-- Pin level `LOW` of the Arduino core. -/
def LOW : Int := 0

/-- The largest `int` (32 bits). -/
def INT_MAX : Int := 2147483647

/-- The statement `x++` on an `int`: past `INT_MAX` the result is not defined. -/
def incr (x : Int) : Option Int := if x < INT_MAX then some (x + 1) else none

/-! ## The Cfg object -/

/-- A page handed to `_websrv->send`: status code, the task line of the page and,
for `/save`, the list of saved names composed by the handler. -/
structure Response where
  code : Nat
  task : List Char
  list : List Char
deriving DecidableEq

/-- One argument of a web request: `argName(i)`, `arg(i)` and `junk`, the bytes of
whatever memory follows the buffer of the value. -/
structure WebArg where
  argName : List Char
  arg : List Char
  junk : Nat → Char

/-- A web request: its uri and its arguments. -/
structure Request where
  uri : List Char
  args : List WebArg

/-- The members of class `Cfg` (a pointer member being null is `false` or `none`),
followed by the board the object runs on: the eeprom, the contents that newly allocated
buffers happen to have, the level of the led pin, the number of led writes, the time spent
in `delay`, the value that each successive read of the button pin yields, the number of
reads of the button pin so far, whether `ESP.restart` was invoked, the number of calls
of `_websrv->handleClient()`, and the pages sent. -/
structure Cfg where
  _appname : List Char
  _fields : List NvmField
  _seriallvl : Int
  _ledpin : Int
  _cfg : Bool
  _loop : Int
  _restart : Bool
  _websrv : Bool
  _dnssrv : Bool
  _nvm_ : Option Nvm
  _vals : List (List Char)
  eeprom : Eeprom
  heap : Nat → Nat → Char
  led : Int
  flashes : Nat
  millis : Nat
  button : Nat → Int
  reads : Nat
  restarted : Bool
  served : Nat
  sent : List Response

/-- The constructor `Cfg::Cfg` on a board with the given eeprom, heap, led level and
button readings. -/
def Cfg.new (appname : List Char) (fields : List NvmField) (seriallvl ledpin : Int)
    (eeprom : Eeprom) (heap : Nat → Nat → Char) (led : Int) (button : Nat → Int) : Cfg :=
  { _appname := appname, _fields := fields, _seriallvl := seriallvl, _ledpin := ledpin,
    _cfg := false, _loop := 0, _restart := false, _websrv := false, _dnssrv := false,
    _nvm_ := none, _vals := [],
    eeprom := eeprom, heap := heap, led := led, flashes := 0, millis := 0,
    button := button, reads := 0,
    restarted := false, served := 0, sent := [] }

/-- The statement `if( _ledpin>=0 ) digitalWrite(_ledpin, (HIGH+LOW)-digitalRead(_ledpin) )`. -/
def Cfg.flash (s : Cfg) : Cfg :=
  if 0 ≤ s._ledpin then { s with led := (HIGH + LOW) - s.led, flashes := s.flashes + 1 } else s

/-- The wait loop of `Cfg::check` with local variable `waited`, for at most `fuel` rounds
(`none` when the rounds do not suffice or an increment is not defined). -/
def Cfg.checkLoop (cfgwait oldbut : Int) : Nat → Int → Cfg → Option Cfg
  | 0, waited, s => if waited < cfgwait ∧ s._cfg = false then none else some s
  | fuel + 1, waited, s =>
    if waited < cfgwait ∧ s._cfg = false then
      let s1 := s.flash
      match incr waited with
      | none => none
      | some w1 =>
        let s2 := { s1 with reads := s1.reads + 1
                            _cfg := if s1.button s1.reads ≠ oldbut then true else s1._cfg }
        let s3 := { s2 with millis := s2.millis + CFG_FLASH_SETUP }
        match incr w1 with
        | none => none
        | some w2 => Cfg.checkLoop cfgwait oldbut fuel w2 s3
    else some s

/-- `Cfg::check`: reads the button pin once, then runs the wait loop. The loop has at
most `cfgwait` rounds. -/
def Cfg.check (s : Cfg) (cfgwait : Int) (_butpin : Int) : Option Cfg :=
  let oldbut := s.button s.reads
  Cfg.checkLoop cfgwait oldbut cfgwait.toNat 0 { s with reads := s.reads + 1 }

/-- `Cfg::cfgmode`. -/
def Cfg.cfgmode (s : Cfg) : Bool := s._cfg

/-- `Cfg::setup`: creates the web server and the DNS server (the access point is not
modelled). -/
def Cfg.setup (s : Cfg) : Cfg := { s with _websrv := true, _dnssrv := true }

/-- `Cfg::_handle_restart`. -/
def Cfg._handle_restart (s : Cfg) : Cfg :=
  { s with
      sent := s.sent ++ [{ code := 200, task := "Restarting".toList, list := [] }]
      _restart := true }

/-- `Cfg::_handle_404`. -/
def Cfg._handle_404 (s : Cfg) : Cfg :=
  { s with sent := s.sent ++ [{ code := 404, task := "Error".toList, list := [] }] }

section

variable (NVM_MAX_LENZ : Nat)

/-- The contents of `new char[NVM_MAX_LENZ]` for cache entry `ix`: not initialised. -/
def Cfg.newBuffer (s : Cfg) (ix : Nat) : List Char :=
  (List.range NVM_MAX_LENZ).map (s.heap ix)

/-- `Cfg::_nvm`: the getter which constructs the store and the cache of values on
first use. Gives the store and the object afterwards. -/
def Cfg._nvm (s : Cfg) : Nvm × Cfg :=
  match s._nvm_ with
  | some n => (n, s)
  | none =>
    let (n, e) := Nvm.new s._fields s.eeprom
    let count := n.count
    (n, { s with
            _nvm_ := some n
            eeprom := e
            _vals := (List.range count.toNat).map
              (fun (ix : Nat) => n.get e (Int.ofNat ix) (s.newBuffer NVM_MAX_LENZ ix)) })

/-- `Cfg::getval(int ix)`: the returned pointer (`none` is the null pointer) and the
object afterwards. -/
def Cfg.getval (s : Cfg) (ix : Int) : Option (List Char) × Cfg :=
  let (n, s1) := s._nvm NVM_MAX_LENZ
  (if 0 ≤ ix ∧ ix < n.count then some (s1._vals.getD ix.toNat []) else none, s1)

/-- `Cfg::getval(const char * name)`. -/
def Cfg.getvalName (s : Cfg) (name : List Char) : Option (List Char) × Cfg :=
  let (n, s1) := s._nvm NVM_MAX_LENZ
  s1.getval NVM_MAX_LENZ (n.find name)

/-- One round of the loop of `Cfg::_handle_save` for argument `a`, on the object `s`
and the local variable `list`. The `memcpy` reads `NVM_MAX_LENZ` bytes at `val.c_str()`:
past the end of the buffer it reads the junk that follows. -/
def Cfg.saveArg (sl : Cfg × List Char) (a : WebArg) : Cfg × List Char :=
  let (s, list) := sl
  let (n, s1) := s._nvm NVM_MAX_LENZ
  let ix := n.find (c_str a.argName)
  if ix = -1 then (s1, list)
  else
    let (n2, s2) := s1._nvm NVM_MAX_LENZ
    let s3 := { s2 with eeprom := n2.put s2.eeprom ix (c_str a.arg) }
    let src := c_str a.arg ++ (List.range NVM_MAX_LENZ).map a.junk
    let val := memcpy (s3._vals.getD ix.toNat []) src NVM_MAX_LENZ
    let s4 := { s3 with _vals := s3._vals.set ix.toNat val }
    (s4, (if list ≠ [] then list ++ ", ".toList else list)
            ++ ("<i>".toList ++ a.argName ++ "</i>".toList))

/-- `Cfg::_handle_save` for a request with arguments `args`. -/
def Cfg._handle_save (s : Cfg) (args : List WebArg) : Cfg :=
  let (s1, list) := args.foldl (Cfg.saveArg NVM_MAX_LENZ) (s, [])
  let list1 := if list = [] then "Nothing to save.".toList else "Saving ".toList ++ list
  { s1 with
      sent := s1.sent ++ [{ code := 200, task := "Saving configuration".toList, list := list1 }]
      _restart := true }

/-- `Cfg::_handle_config`: walks over all entries of `_fields`; for an entry that is not
a header it gets the value from the store (through `_nvm()`), then sends the form. -/
def Cfg._handle_config (s : Cfg) : Cfg :=
  let s1 := s._fields.foldl
    (fun (t : Cfg) (field : NvmField) => if field.len = 0 then t else (t._nvm NVM_MAX_LENZ).2) s
  { s1 with
      sent := s1.sent ++ [{ code := 200, task := "Edit configuration".toList, list := [] }] }

/-- `_websrv->handleClient()`: without a pending request nothing happens; a request goes
to the handler registered for its uri in `Cfg::setup`. -/
def Cfg.handleClient (s : Cfg) (req : Option Request) : Cfg :=
  match req with
  | none => s
  | some r =>
    if r.uri = "/".toList then s._handle_config NVM_MAX_LENZ
    else if r.uri = "/save".toList then s._handle_save NVM_MAX_LENZ r.args
    else if r.uri = "/restart".toList then s._handle_restart
    else s._handle_404

/-- `Cfg::loop` when the web server finds the pending request `req`. The result is
`none` when `_loop++` is not defined or a null server pointer is used. -/
def Cfg.loop (s : Cfg) (req : Option Request) : Option Cfg :=
  match incr s._loop with
  | none => none
  | some l =>
    let s1 := ({ s with _loop := l } : Cfg).flash
    if s1._restart then
      some { s1 with millis := s1.millis + 1000, restarted := true }
    else if s1._dnssrv = false ∨ s1._websrv = false then none
    else
      let s2 := ({ s1 with served := s1.served + 1 } : Cfg).handleClient NVM_MAX_LENZ req
      some { s2 with millis := s2.millis + CFG_FLASH_LOOP }

end

/-! ## Predicates on states and sample objects -/

/-- What a state keeps when only pins, clock and the configuration flag change. -/
def Cfg.SameSession (s t : Cfg) : Prop :=
  t._appname = s._appname ∧ t._fields = s._fields ∧ t._seriallvl = s._seriallvl ∧
  t._ledpin = s._ledpin ∧ t._loop = s._loop ∧ t._restart = s._restart ∧
  t._websrv = s._websrv ∧ t._dnssrv = s._dnssrv ∧ t._nvm_ = s._nvm_ ∧ t._vals = s._vals ∧
  t.eeprom = s.eeprom ∧ t.heap = s.heap ∧ t.button = s.button ∧
  t.restarted = s.restarted ∧ t.sent = s.sent

/-- The store the object works with: the one it has constructed, or else the one that
`_nvm()` is going to construct. -/
def Cfg.store (s : Cfg) : Nvm :=
  match s._nvm_ with
  | some n => n
  | none => (Nvm.new s._fields s.eeprom).1

/-- What holds of the object from its construction on: once the store exists, it is
the store of `_fields`, the cache has one buffer per field and so has the medium one
region per field. -/
def Cfg.Inv (s : Cfg) : Prop :=
  ∀ n, s._nvm_ = some n →
    n.fields = s._fields.filter (fun f => f.len != 0) ∧
    s._vals.length = n.fields.length ∧ s.eeprom.regions.length = n.fields.length

/-- The state after the argument `a` is written at index `ix` to store and cache, as in
`Cfg::_handle_save` with `NVM_MAX_LENZ = L`. -/
def Cfg.written (L : Nat) (s : Cfg) (n : Nvm) (ix : Int) (a : WebArg) : Cfg :=
  { s with
      eeprom := n.put s.eeprom ix (c_str a.arg)
      _vals := s._vals.set ix.toNat
        (memcpy (s._vals.getD ix.toNat []) (c_str a.arg ++ (List.range L).map a.junk) L) }

/-- A medium that was never written. -/
def blankEeprom : Eeprom := { signature := none, regions := [] }

/-- The object of the demo sketch, `Cfg cfg("CfgDemo")`, with the default fields and the
led on pin 2, on a board with a blank eeprom whose button pin reads `button`. -/
def demo (button : Nat → Int) : Cfg :=
  Cfg.new "CfgDemo".toList CfgFieldsDefault 1 2 blankEeprom (fun _ _ => 'x') 0 button

/-- The local variable `list` of `Cfg::_handle_save` after rounds that save the fields
called `names`. -/
def appendNames (list : List Char) (names : List (List Char)) : List Char :=
  names.foldl (fun l x => (if l ≠ [] then l ++ ", ".toList else l)
    ++ ("<i>".toList ++ x ++ "</i>".toList)) list

/-- One round of `Cfg::_handle_save` as a change of the state alone, when the store `n`
is constructed already. -/
def Cfg.saved (L : Nat) (n : Nvm) (s : Cfg) (a : WebArg) : Cfg :=
  if n.find (c_str a.argName) = -1 then s else s.written L n (n.find (c_str a.argName)) a

/-- The operations of a session: the public functions of class `Cfg` and the four
handlers that the web server may call. -/
inductive Op where
  | check (cfgwait butpin : Int)
  | setup
  | loop (req : Option Request)
  | getval (ix : Int)
  | getvalName (name : List Char)
  | handle_config
  | handle_save (args : List WebArg)
  | handle_restart
  | handle_404

/-- The state after one operation (`none` when the operation has no defined result). -/
def Cfg.step (L : Nat) (s : Cfg) : Op → Option Cfg
  | .check cfgwait butpin => s.check cfgwait butpin
  | .setup => some s.setup
  | .loop req => s.loop L req
  | .getval ix => some (s.getval L ix).2
  | .getvalName name => some (s.getvalName L name).2
  | .handle_config => some (s._handle_config L)
  | .handle_save args => some (s._handle_save L args)
  | .handle_restart => some s._handle_restart
  | .handle_404 => some s._handle_404

/-- The state after a sequence of operations. -/
def Cfg.run (L : Nat) (s : Cfg) : List Op → Option Cfg
  | [] => some s
  | op :: ops => (s.step L op).bind (fun t => Cfg.run L t ops)

/-- The demo object after `check` has seen the button pressed. -/
def demoPressed : Cfg := { demo (fun _ => 0) with _cfg := true, reads := 2 }

/-- Two submitted pairs with the same name and the same value (the memory behind the
values may differ). -/
def SamePair (a b : WebArg) : Prop := a.argName = b.argName ∧ a.arg = b.arg

/-- Two states that agree on the store, on the strings held by the cache and on the
restart flag (the buffers agree past the first `L` bytes, up to which `memcpy` writes). -/
def Cfg.SameValues (L : Nat) (t u : Cfg) : Prop :=
  u._nvm_ = t._nvm_ ∧ u.eeprom = t.eeprom ∧ u._vals.map cstr = t._vals.map cstr ∧
  u._vals.map (List.drop L) = t._vals.map (List.drop L) ∧ u._restart = t._restart

/-- What a state keeps over `_nvm()` and over each of the four handlers: the tick
counter, the flag of configuration mode, the count of served requests, whether the
restart was invoked, and the led and the clock. -/
def Cfg.SameTick (s t : Cfg) : Prop :=
  t._loop = s._loop ∧ t._cfg = s._cfg ∧ t.served = s.served ∧ t.restarted = s.restarted ∧
  t.led = s.led ∧ t.flashes = s.flashes ∧ t.millis = s.millis

/-- The demo object in configuration mode: the button was pressed and `setup` has run. -/
def demoConfiguring : Cfg := demoPressed.setup

/-! ## Lemmas on C strings -/

theorem cstr_nil : cstr [] = [] := rfl

theorem nul_not_mem_cstr (p : List Char) : NUL ∉ cstr p := by
  intro h
  have := List.mem_takeWhile_imp h
  simp at this

theorem cstr_append_nul (v r : List Char) (hv : NUL ∉ v) : cstr (v ++ NUL :: r) = v := by
  induction v with
  | nil => simp [cstr, List.takeWhile]
  | cons c v ih =>
    have hc : c ≠ NUL := fun h => hv (by simp [h])
    have hv2 : NUL ∉ v := fun h => hv (by simp [h])
    simp only [cstr, List.cons_append, List.takeWhile_cons] at *
    simp [hc, ih hv2]

theorem cstr_of_nul_free (v : List Char) (hv : NUL ∉ v) : cstr v = v := by
  induction v with
  | nil => rfl
  | cons c v ih =>
    have hc : c ≠ NUL := fun h => hv (by simp [h])
    have hv2 : NUL ∉ v := fun h => hv (by simp [h])
    simp only [cstr, List.takeWhile_cons] at *
    simp [hc, ih hv2]

theorem cstr_c_str (v : List Char) : cstr (c_str v) = cstr v := by
  induction v with
  | nil => simp [cstr, c_str, List.takeWhile]
  | cons c v ih =>
    simp only [cstr, c_str, List.cons_append, List.takeWhile_cons] at *
    split
    · rw [ih]
    · rfl

theorem cstr_strcpy (dst src : List Char) : cstr (strcpy dst src) = cstr src := by
  unfold strcpy
  exact cstr_append_nul _ _ (nul_not_mem_cstr src)

/-- The string in a buffer after `memcpy` of `n` bytes from the buffer of a shorter `String`. -/
theorem cstr_memcpy_short (dst v : List Char) (junk : Nat → Char) (n : Nat) (hv : NUL ∉ v)
    (hn : v.length < n) :
    cstr (memcpy dst (c_str v ++ (List.range n).map junk) n) = v := by
  unfold memcpy c_str
  have h1 : (v ++ [NUL] ++ (List.range n).map junk).take n
      = v ++ NUL :: ((List.range n).map junk).take (n - v.length - 1) := by
    rw [List.append_assoc, List.take_append_eq_append_take, List.take_of_length_le (by omega)]
    congr 1
    have : n - v.length = (n - v.length - 1) + 1 := by omega
    rw [this]
    simp
  rw [h1, List.append_assoc]
  exact cstr_append_nul _ _ hv

/-- The string in a buffer after `memcpy` of `n` bytes from the buffer of a `String` of
at least `n` characters: it starts with the first `n` characters. -/
theorem cstr_memcpy_long (dst v : List Char) (junk : Nat → Char) (n : Nat) (hv : NUL ∉ v)
    (hn : n ≤ v.length) :
    n ≤ (cstr (memcpy dst (c_str v ++ (List.range n).map junk) n)).length := by
  unfold memcpy c_str
  have h1 : (v ++ [NUL] ++ (List.range n).map junk).take n = v.take n := by
    rw [List.append_assoc, List.take_append_eq_append_take]
    have : n - v.length = 0 := by omega
    simp [this]
  rw [h1]
  have h2 : ∀ (a b : List Char), NUL ∉ a → a.length ≤ (cstr (a ++ b)).length := by
    intro a b ha
    induction a with
    | nil => simp
    | cons c a ih =>
      have hc : c ≠ NUL := fun h => ha (by simp [h])
      have ha2 : NUL ∉ a := fun h => ha (by simp [h])
      simp only [cstr, List.cons_append, List.takeWhile_cons] at *
      simp [hc]
      exact ih ha2
  have h3 : NUL ∉ v.take n := fun h => hv (List.mem_of_mem_take h)
  have := h2 (v.take n) (dst.drop n) h3
  simpa [List.length_take, hn] using this

/-! ## Lemmas on the check phase -/

theorem incr_eq_some {x y : Int} (h : incr x = some y) : y = x + 1 ∧ x < INT_MAX := by
  unfold incr at h
  split at h
  · simp at h; exact ⟨h.symm, by assumption⟩
  · simp at h

theorem incr_of_lt {x : Int} (h : x < INT_MAX) : incr x = some (x + 1) := by
  simp [incr, h]

theorem SameSession.refl (s : Cfg) : s.SameSession s := by
  simp [Cfg.SameSession]

theorem SameSession.trans {s t u : Cfg} (h1 : s.SameSession t) (h2 : t.SameSession u) :
    s.SameSession u := by
  simp only [Cfg.SameSession] at *
  obtain ⟨a1, a2, a3, a4, a5, a6, a7, a8, a9, a10, a11, a12, a13, a14, a15⟩ := h1
  obtain ⟨b1, b2, b3, b4, b5, b6, b7, b8, b9, b10, b11, b12, b13, b14, b15⟩ := h2
  simp [*]

theorem flash_sameSession (s : Cfg) : s.SameSession s.flash := by
  unfold Cfg.flash
  split <;> simp [Cfg.SameSession]

theorem flash_pins (s : Cfg) :
    s.flash._cfg = s._cfg ∧ s.flash.reads = s.reads ∧ s.flash.millis = s.millis ∧
    s.flash.flashes = s.flashes + (if 0 ≤ s._ledpin then 1 else 0) := by
  unfold Cfg.flash
  split <;> simp

/-- One round of the wait loop, as a state update. -/
theorem checkLoop_succ (cfgwait oldbut : Int) (fuel : Nat) (waited : Int) (s : Cfg)
    (hc : waited < cfgwait ∧ s._cfg = false) :
    Cfg.checkLoop cfgwait oldbut (fuel + 1) waited s =
      (incr waited).bind (fun w1 => (incr w1).bind (fun w2 =>
        Cfg.checkLoop cfgwait oldbut fuel w2
          { s.flash with
              reads := s.flash.reads + 1
              _cfg := if s.flash.button s.flash.reads ≠ oldbut then true else s.flash._cfg
              millis := s.flash.millis + CFG_FLASH_SETUP })) := by
  simp only [Cfg.checkLoop, if_pos hc]
  cases incr waited with
  | none => rfl
  | some w1 =>
    simp only [Option.bind]
    cases incr w1 <;> rfl

theorem checkLoop_stop (cfgwait oldbut : Int) (fuel : Nat) (waited : Int) (s : Cfg)
    (hc : ¬ (waited < cfgwait ∧ s._cfg = false)) :
    Cfg.checkLoop cfgwait oldbut fuel waited s = some s := by
  cases fuel <;> simp only [Cfg.checkLoop, if_neg hc]

/-- The wait loop changes only pins, clock and flag. -/
theorem checkLoop_sameSession (cfgwait oldbut : Int) :
    ∀ (fuel : Nat) (waited : Int) (s t : Cfg),
      Cfg.checkLoop cfgwait oldbut fuel waited s = some t → s.SameSession t := by
  intro fuel
  induction fuel with
  | zero =>
    intro waited s t h
    by_cases hc : waited < cfgwait ∧ s._cfg = false
    · simp [Cfg.checkLoop, hc] at h
    · rw [checkLoop_stop _ _ _ _ _ hc] at h
      cases h
      exact SameSession.refl s
  | succ fuel ih =>
    intro waited s t h
    by_cases hc : waited < cfgwait ∧ s._cfg = false
    · rw [checkLoop_succ _ _ _ _ _ hc] at h
      cases h1 : incr waited with
      | none => simp [h1] at h
      | some w1 =>
        cases h2 : incr w1 with
        | none => simp [h1, h2] at h
        | some w2 =>
          simp only [h1, h2, Option.bind] at h
          have h3 := ih _ _ _ h
          refine SameSession.trans (flash_sameSession s) (SameSession.trans ?_ h3)
          simp [Cfg.SameSession]
    · rw [checkLoop_stop _ _ _ _ _ hc] at h
      cases h
      exact SameSession.refl s

/-- The flag after the wait loop: it was set before, or a value read in the loop differs
from the baseline. -/
theorem checkLoop_reads (cfgwait oldbut : Int) :
    ∀ (fuel : Nat) (waited : Int) (s t : Cfg),
      Cfg.checkLoop cfgwait oldbut fuel waited s = some t →
      s.reads ≤ t.reads ∧
      (t._cfg = true ↔
        (s._cfg = true ∨ ∃ k, s.reads ≤ k ∧ k < t.reads ∧ s.button k ≠ oldbut)) := by
  intro fuel
  induction fuel with
  | zero =>
    intro waited s t h
    by_cases hc : waited < cfgwait ∧ s._cfg = false
    · simp [Cfg.checkLoop, hc] at h
    · rw [checkLoop_stop _ _ _ _ _ hc] at h
      cases h
      refine ⟨le_refl _, fun hh => Or.inl hh, ?_⟩
      rintro (hh | ⟨k, h1, h2, -⟩)
      · exact hh
      · omega
  | succ fuel ih =>
    intro waited s t h
    by_cases hc : waited < cfgwait ∧ s._cfg = false
    · rw [checkLoop_succ _ _ _ _ _ hc] at h
      cases h1 : incr waited with
      | none => simp [h1] at h
      | some w1 =>
        cases h2 : incr w1 with
        | none => simp [h1, h2] at h
        | some w2 =>
          simp only [h1, h2, Option.bind] at h
          obtain ⟨hr, hcfg⟩ := ih _ _ _ h
          obtain ⟨f1, f2, -, -⟩ := flash_pins s
          have f3 : s.flash.button = s.button := (flash_sameSession s).2.2.2.2.2.2.2.2.2.2.2.2.1
          simp only [f1, f2, f3] at hr hcfg
          refine ⟨by omega, ?_⟩
          rw [hcfg]
          simp only [hc.2]
          constructor
          · rintro (hh | ⟨k, hk1, hk2, hk3⟩)
            · refine Or.inr ⟨s.reads, le_refl _, by omega, ?_⟩
              by_contra hne
              simp [hne] at hh
            · exact Or.inr ⟨k, by omega, hk2, hk3⟩
          · rintro (hh | ⟨k, hk1, hk2, hk3⟩)
            · simp at hh
            · by_cases hk : k = s.reads
              · subst hk
                left
                simp [hk3]
              · exact Or.inr ⟨k, by omega, hk2, hk3⟩
    · rw [checkLoop_stop _ _ _ _ _ hc] at h
      cases h
      refine ⟨le_refl _, fun hh => Or.inl hh, ?_⟩
      rintro (hh | ⟨k, h1, h2, -⟩)
      · exact hh
      · omega

/-- Below `INT_MAX` the wait loop returns when it has a round per unit of budget left. -/
theorem checkLoop_returns (cfgwait oldbut : Int) (hmax : cfgwait < INT_MAX) :
    ∀ (fuel : Nat) (waited : Int) (s : Cfg), (cfgwait - waited).toNat ≤ fuel →
      ∃ t, Cfg.checkLoop cfgwait oldbut fuel waited s = some t := by
  intro fuel
  induction fuel with
  | zero =>
    intro waited s hf
    have hc : ¬ (waited < cfgwait ∧ s._cfg = false) := by
      rintro ⟨h, -⟩
      omega
    exact ⟨s, checkLoop_stop _ _ _ _ _ hc⟩
  | succ fuel ih =>
    intro waited s hf
    by_cases hc : waited < cfgwait ∧ s._cfg = false
    · rw [checkLoop_succ _ _ _ _ _ hc]
      have h1 : incr waited = some (waited + 1) := incr_of_lt (by omega)
      have h2 : incr (waited + 1) = some (waited + 1 + 1) := incr_of_lt (by omega)
      simp only [h1, h2, Option.bind]
      exact ih _ _ (by omega)
    · exact ⟨s, checkLoop_stop _ _ _ _ _ hc⟩

/-- The number of rounds of the wait loop while the button keeps its baseline value:
half the remaining budget, rounded up. -/
theorem checkLoop_constant (cfgwait oldbut : Int) :
    ∀ (fuel : Nat) (waited : Int) (s t : Cfg),
      Cfg.checkLoop cfgwait oldbut fuel waited s = some t →
      s._cfg = false → (∀ k, s.button k = oldbut) →
      t._cfg = false ∧
      t.reads = s.reads + ((cfgwait - waited + 1) / 2).toNat ∧
      t.millis = s.millis + CFG_FLASH_SETUP * ((cfgwait - waited + 1) / 2).toNat ∧
      t.flashes = s.flashes + (if 0 ≤ s._ledpin then ((cfgwait - waited + 1) / 2).toNat else 0) := by
  intro fuel
  induction fuel with
  | zero =>
    intro waited s t h hcfg hbut
    by_cases hc : waited < cfgwait ∧ s._cfg = false
    · simp [Cfg.checkLoop, hc] at h
    · rw [checkLoop_stop _ _ _ _ _ hc] at h
      cases h
      have hw : ¬ waited < cfgwait := fun hw => hc ⟨hw, hcfg⟩
      have hz : ((cfgwait - waited + 1) / 2).toNat = 0 := by omega
      simp [hz, hcfg]
  | succ fuel ih =>
    intro waited s t h hcfg hbut
    by_cases hc : waited < cfgwait ∧ s._cfg = false
    · rw [checkLoop_succ _ _ _ _ _ hc] at h
      cases h1 : incr waited with
      | none => simp [h1] at h
      | some w1 =>
        cases h2 : incr w1 with
        | none => simp [h1, h2] at h
        | some w2 =>
          simp only [h1, h2, Option.bind] at h
          obtain ⟨f1, f2, f3, f4⟩ := flash_pins s
          have f5 : s.flash.button = s.button := (flash_sameSession s).2.2.2.2.2.2.2.2.2.2.2.2.1
          have f6 : s.flash._ledpin = s._ledpin := (flash_sameSession s).2.2.2.1
          have e1 := (incr_eq_some h1).1
          have e2 := (incr_eq_some h2).1
          obtain ⟨g1, g2, g3, g4⟩ := ih _ _ _ h (by simp [f1, f5, hbut, hcfg])
            (by simpa [f5] using hbut)
          simp only [f2, f3, f4, f6] at g2 g3 g4
          have hn : ((cfgwait - waited + 1) / 2).toNat = ((cfgwait - w2 + 1) / 2).toNat + 1 := by
            have := hc.1
            omega
          refine ⟨g1, by omega, ?_, ?_⟩
          · rw [g3, hn]; ring
          · rw [g4, hn]
            split <;> omega
    · rw [checkLoop_stop _ _ _ _ _ hc] at h
      cases h
      have hw : ¬ waited < cfgwait := fun hw => hc ⟨hw, hcfg⟩
      have hz : ((cfgwait - waited + 1) / 2).toNat = 0 := by omega
      simp [hz, hcfg]

/-! ## Lemmas on the store -/

theorem scan_range (name : List Char) :
    ∀ (fs : List NvmField) (ix : Int), 0 ≤ ix →
      Nvm.scan fs name ix = -1 ∨ (ix ≤ Nvm.scan fs name ix ∧ Nvm.scan fs name ix < ix + fs.length) := by
  intro fs
  induction fs with
  | nil => intro ix _; left; rfl
  | cons f fs ih =>
    intro ix h0
    simp only [Nvm.scan]
    split
    · right
      simp only [List.length_cons]
      push_cast
      omega
    · rcases ih (ix + 1) (by omega) with h | ⟨h1, h2⟩
      · left; exact h
      · right
        simp only [List.length_cons]
        push_cast
        omega

theorem scan_name (name : List Char) :
    ∀ (fs : List NvmField) (ix : Int), 0 ≤ ix → Nvm.scan fs name ix ≠ -1 →
      ∃ f, fs[(Nvm.scan fs name ix - ix).toNat]? = some f ∧ cstr f.name = name := by
  intro fs
  induction fs with
  | nil => intro ix _ h; simp [Nvm.scan] at h
  | cons f fs ih =>
    intro ix h0 h
    simp only [Nvm.scan] at h ⊢
    split
    · rename_i hn
      exact ⟨f, by simp, hn⟩
    · rename_i hn
      simp only [hn, if_false] at h
      obtain ⟨g, hg1, hg2⟩ := ih (ix + 1) (by omega) h
      refine ⟨g, ?_, hg2⟩
      rcases scan_range name fs (ix + 1) (by omega) with h3 | ⟨h3, h4⟩
      · exact absurd h3 h
      · have : (Nvm.scan fs name (ix + 1) - ix).toNat
            = (Nvm.scan fs name (ix + 1) - (ix + 1)).toNat + 1 := by omega
        rw [this, List.getElem?_cons_succ]
        exact hg1

theorem scan_first :
    ∀ (fs : List NvmField) (i : Nat) (f : NvmField) (ix : Int), fs[i]? = some f →
      (∀ j g, j < i → fs[j]? = some g → cstr g.name ≠ cstr f.name) →
      Nvm.scan fs (cstr f.name) ix = ix + i := by
  intro fs
  induction fs with
  | nil => intro i f ix h; simp at h
  | cons g fs ih =>
    intro i f ix h hfirst
    cases i with
    | zero =>
      simp at h
      subst h
      simp [Nvm.scan]
    | succ i =>
      have hg : cstr g.name ≠ cstr f.name := hfirst 0 g (by omega) (by simp)
      simp only [Nvm.scan, hg, if_false]
      rw [List.getElem?_cons_succ] at h
      rw [ih i f (ix + 1) h]
      · push_cast; ring
      · intro j g2 hj hg2
        exact hfirst (j + 1) g2 (by omega) (by simpa using hg2)

theorem find_range (n : Nvm) (p : List Char) :
    n.find p = -1 ∨ (0 ≤ n.find p ∧ n.find p < n.count) := by
  have := scan_range (cstr p) n.fields 0 (le_refl _)
  simpa [Nvm.find, Nvm.count] using this

theorem find_name (n : Nvm) (p : List Char) (h : n.find p ≠ -1) :
    ∃ f, n.fields[(n.find p).toNat]? = some f ∧ cstr f.name = cstr p := by
  have := scan_name (cstr p) n.fields 0 (le_refl _) h
  simpa [Nvm.find] using this

/-- With distinct names, `find` gives back the index of a field from its name. -/
theorem find_of_nodup (n : Nvm) (i : Nat) (f : NvmField) (p : List Char)
    (hf : n.fields[i]? = some f) (hp : cstr p = cstr f.name)
    (hnd : (n.fields.map (fun g => cstr g.name)).Nodup) : n.find p = i := by
  unfold Nvm.find
  rw [hp, scan_first n.fields i f 0 hf]
  · simp
  · intro j g hj hg heq
    have hi : i < n.fields.length := by
      by_contra hc
      rw [List.getElem?_eq_none (by omega)] at hf
      cases hf
    have h1 : (n.fields.map (fun g => cstr g.name))[j]? = some (cstr g.name) := by
      simp [hg]
    have h2 : (n.fields.map (fun g => cstr g.name))[i]? = some (cstr f.name) := by
      simp [hf]
    have hj2 : j < (n.fields.map (fun g => cstr g.name)).length := by simp; omega
    have hi2 : i < (n.fields.map (fun g => cstr g.name)).length := by simp; omega
    rw [List.getElem?_eq_getElem hj2] at h1
    rw [List.getElem?_eq_getElem hi2] at h2
    have := (List.Nodup.getElem_inj_iff hnd).1 (by
      rw [Option.some.inj h1, Option.some.inj h2]; exact heq : (n.fields.map (fun g => cstr g.name))[j] = (n.fields.map (fun g => cstr g.name))[i])
    omega

theorem new_fst (fields : List NvmField) (e : Eeprom) :
    (Nvm.new fields e).1 = { fields := fields.filter (fun f => f.len != 0) } := by
  unfold Nvm.new
  simp only []
  split <;> rfl

theorem new_regions (fields : List NvmField) (e : Eeprom) :
    (Nvm.new fields e).2.regions.length = (fields.filter (fun f => f.len != 0)).length := by
  unfold Nvm.new
  simp only []
  split
  · rename_i h; exact h.2
  · simp

/-! ## Lemmas on the lazy store and on saving -/

section
variable (L : Nat)

theorem nvm_of_some (s : Cfg) (n : Nvm) (h : s._nvm_ = some n) : s._nvm L = (n, s) := by
  unfold Cfg._nvm
  simp [h]

theorem nvm_fst (s : Cfg) : (s._nvm L).1 = s.store := by
  unfold Cfg._nvm Cfg.store
  cases s._nvm_ <;> rfl

theorem nvm_snd_store (s : Cfg) : (s._nvm L).2._nvm_ = some s.store := by
  unfold Cfg._nvm Cfg.store
  cases h : s._nvm_ <;> simp [h]

theorem store_fields (s : Cfg) (h : s.Inv) :
    s.store.fields = s._fields.filter (fun f => f.len != 0) := by
  unfold Cfg.store
  cases hn : s._nvm_ with
  | none => simp [new_fst]
  | some n => exact (h n hn).1

theorem nvm_snd_inv (s : Cfg) (h : s.Inv) : (s._nvm L).2.Inv := by
  cases hn : s._nvm_ with
  | some n => rw [nvm_of_some L s n hn]; exact h
  | none =>
    intro n h2
    unfold Cfg._nvm at h2 ⊢
    simp only [hn] at h2 ⊢
    simp only [Option.some.injEq] at h2
    subst h2
    simp [new_fst, new_regions, Nvm.count]

/-- What `_nvm()` keeps: everything but the store pointer, the cache and the medium. -/
theorem nvm_snd_frame (s : Cfg) :
    (s._nvm L).2._fields = s._fields ∧ (s._nvm L).2._cfg = s._cfg ∧
    (s._nvm L).2._restart = s._restart ∧ (s._nvm L).2._loop = s._loop ∧
    (s._nvm L).2.sent = s.sent ∧ (s._nvm L).2.restarted = s.restarted ∧
    (s._nvm L).2._websrv = s._websrv ∧ (s._nvm L).2._dnssrv = s._dnssrv ∧
    (s._nvm L).2._ledpin = s._ledpin ∧ (s._nvm L).2.heap = s.heap := by
  unfold Cfg._nvm
  cases s._nvm_ <;> simp

theorem nvm_snd_store_eq (s : Cfg) : (s._nvm L).2.store = s.store := by
  have := nvm_snd_store L s
  simp [Cfg.store, this]

theorem nvm_snd_idem (s : Cfg) : ((s._nvm L).2._nvm L).2 = (s._nvm L).2 := by
  rw [nvm_of_some L _ _ (nvm_snd_store L s)]

theorem saveArg_of_some (s : Cfg) (n : Nvm) (list : List Char) (a : WebArg)
    (h : s._nvm_ = some n) :
    Cfg.saveArg L (s, list) a =
      if n.find (c_str a.argName) = -1 then (s, list)
      else (s.written L n (n.find (c_str a.argName)) a,
            (if list ≠ [] then list ++ ", ".toList else list)
              ++ ("<i>".toList ++ a.argName ++ "</i>".toList)) := by
  unfold Cfg.saveArg
  simp only [nvm_of_some L s n h]
  split
  · rfl
  · rfl

theorem saveArg_eq (s : Cfg) (list : List Char) (a : WebArg) :
    Cfg.saveArg L (s, list) a = Cfg.saveArg L ((s._nvm L).2, list) a := by
  conv_lhs => unfold Cfg.saveArg
  conv_rhs => unfold Cfg.saveArg
  simp only [nvm_snd_idem, nvm_of_some L _ _ (nvm_snd_store L s), nvm_fst]

end

section
variable (L : Nat)

theorem getval_of_some (s : Cfg) (n : Nvm) (ix : Int) (h : s._nvm_ = some n) :
    s.getval L ix = (if 0 ≤ ix ∧ ix < n.count then some (s._vals.getD ix.toNat []) else none, s) := by
  unfold Cfg.getval
  simp only [nvm_of_some L s n h]

theorem getvalName_of_some (s : Cfg) (n : Nvm) (p : List Char) (h : s._nvm_ = some n) :
    s.getvalName L p = s.getval L (n.find p) := by
  unfold Cfg.getvalName
  simp only [nvm_of_some L s n h]

theorem cstr_cstr (p : List Char) : cstr (cstr p) = cstr p :=
  cstr_of_nul_free _ (nul_not_mem_cstr p)

/-- Saving one pair whose name is the name of field `i`: the buffer handed out for `i`
(by index and by name) and the region of the field afterwards. -/
theorem save_single (s : Cfg) (i : Nat) (f : NvmField) (v : List Char) (junk : Nat → Char)
    (hinv : s.Inv) (hf : s.store.fields[i]? = some f)
    (hnd : (s.store.fields.map (fun g => cstr g.name)).Nodup) :
    ((s._handle_save L [⟨cstr f.name, v, junk⟩]).getval L i).1
      = some (memcpy ((s._nvm L).2._vals.getD i []) (c_str v ++ (List.range L).map junk) L) ∧
    ((s._handle_save L [⟨cstr f.name, v, junk⟩]).getvalName L f.name).1
      = some (memcpy ((s._nvm L).2._vals.getD i []) (c_str v ++ (List.range L).map junk) L) ∧
    (s._handle_save L [⟨cstr f.name, v, junk⟩]).eeprom.regions[i]?
      = some (some ((cstr v).take f.len)) := by
  have hi : i < s.store.fields.length := by
    by_contra hc
    rw [List.getElem?_eq_none (by omega)] at hf
    cases hf
  have hfind : s.store.find (c_str (cstr f.name)) = i :=
    find_of_nodup s.store i f _ hf (by rw [cstr_c_str, cstr_cstr]) hnd
  have hfind2 : s.store.find f.name = i := find_of_nodup s.store i f _ hf rfl hnd
  have hs := nvm_snd_store L s
  have hinv2 := nvm_snd_inv L s hinv
  obtain ⟨-, hvl, hrl⟩ := hinv2 _ hs
  have hsave : s._handle_save L [⟨cstr f.name, v, junk⟩]
      = { (s._nvm L).2.written L s.store i ⟨cstr f.name, v, junk⟩ with
            sent := (s._nvm L).2.sent ++
              [{ code := 200, task := "Saving configuration".toList,
                 list := "Saving ".toList ++ ("<i>".toList ++ cstr f.name ++ "</i>".toList) }]
            _restart := true } := by
    unfold Cfg._handle_save
    simp only [List.foldl_cons, List.foldl_nil]
    rw [saveArg_eq, saveArg_of_some L _ _ _ _ hs]
    simp [hfind, Cfg.written]
  have hcount : (0:Int) ≤ i ∧ (i:Int) < s.store.count := by
    simp only [Nvm.count]; omega
  rw [hsave]
  refine ⟨?_, ?_, ?_⟩
  · rw [getval_of_some L _ s.store _ (by simpa [Cfg.written] using hs)]
    simp only [hcount, and_self, if_true, Cfg.written, Int.toNat_ofNat]
    rw [List.getD_eq_getElem?_getD, List.getElem?_set_self (by omega)]
    rfl
  · rw [getvalName_of_some L _ s.store _ (by simpa [Cfg.written] using hs), hfind2,
      getval_of_some L _ s.store _ (by simpa [Cfg.written] using hs)]
    simp only [hcount, and_self, if_true, Cfg.written, Int.toNat_ofNat]
    rw [List.getD_eq_getElem?_getD, List.getElem?_set_self (by omega)]
    rfl
  · simp only [Cfg.written, Nvm.put, hcount, and_self, if_true, Int.toNat_ofNat]
    rw [List.getElem?_set_self (by omega)]
    simp [List.getD_eq_getElem?_getD, hf, cstr_c_str]

end

section
variable (L : Nat)

theorem written_nvm (s : Cfg) (n : Nvm) (ix : Int) (a : WebArg) :
    (s.written L n ix a)._nvm_ = s._nvm_ := rfl

/-- The rounds of `_handle_save` keep the store pointer once it is set. -/
theorem foldl_saveArg_nvm (n : Nvm) :
    ∀ (args : List WebArg) (s : Cfg) (list : List Char), s._nvm_ = some n →
      (args.foldl (Cfg.saveArg L) (s, list)).1._nvm_ = some n := by
  intro args
  induction args with
  | nil => intro s list h; exact h
  | cons a args ih =>
    intro s list h
    rw [List.foldl_cons, saveArg_of_some L s n list a h]
    split
    · exact ih _ _ h
    · exact ih _ _ (by rw [written_nvm]; exact h)

/-- On a constructed store the rounds for unknown names can be left out. -/
theorem foldl_saveArg_filter (n : Nvm) :
    ∀ (args : List WebArg) (s : Cfg) (list : List Char), s._nvm_ = some n →
      args.foldl (Cfg.saveArg L) (s, list)
        = (args.filter (fun a => n.find (c_str a.argName) != -1)).foldl (Cfg.saveArg L) (s, list) := by
  intro args
  induction args with
  | nil => intro s list _; rfl
  | cons a args ih =>
    intro s list h
    by_cases hk : n.find (c_str a.argName) = -1
    · rw [List.foldl_cons, saveArg_of_some L s n list a h, if_pos hk, ih s list h,
        List.filter_cons_of_neg (by simp [hk])]
    · rw [List.filter_cons_of_pos (by simp [hk]), List.foldl_cons, List.foldl_cons,
        saveArg_of_some L s n list a h, if_neg hk]
      exact ih _ _ (by rw [written_nvm]; exact h)

/-- The rounds of `_handle_save` from a state and from the same state with the store
constructed end alike, up to the construction of the store. -/
theorem foldl_saveArg_force (args : List WebArg) (s : Cfg) (list : List Char) :
    (((args.foldl (Cfg.saveArg L) (s, list)).1)._nvm L).2
        = (args.foldl (Cfg.saveArg L) ((s._nvm L).2, list)).1 ∧
    (args.foldl (Cfg.saveArg L) (s, list)).2
        = (args.foldl (Cfg.saveArg L) ((s._nvm L).2, list)).2 := by
  cases args with
  | nil => exact ⟨rfl, rfl⟩
  | cons a args =>
    rw [List.foldl_cons, List.foldl_cons, saveArg_eq L s list a]
    refine ⟨?_, rfl⟩
    have h1 : (Cfg.saveArg L ((s._nvm L).2, list) a).1._nvm_ = some s.store := by
      have := foldl_saveArg_nvm L s.store [a] (s._nvm L).2 list (nvm_snd_store L s)
      simpa using this
    have h2 := foldl_saveArg_nvm L s.store args _ (Cfg.saveArg L ((s._nvm L).2, list) a).2 h1
    rw [nvm_of_some L _ _ h2]

theorem appendNames_of_ne (names : List (List Char)) :
    ∀ (list : List Char), list ≠ [] →
      appendNames list names
        = list ++ (names.map (fun x => ", ".toList ++ ("<i>".toList ++ x ++ "</i>".toList))).flatten := by
  induction names with
  | nil => intro list _; simp [appendNames]
  | cons x names ih =>
    intro list h
    have := ih (list ++ ", ".toList ++ ("<i>".toList ++ x ++ "</i>".toList)) (by simp)
    simp only [appendNames, List.foldl_cons, if_pos h] at this ⊢
    rw [this]
    simp

theorem intercalate_cons (sep x : List Char) (xs : List (List Char)) :
    sep.intercalate (x :: xs) = x ++ (xs.map (fun y => sep ++ y)).flatten := by
  induction xs generalizing x with
  | nil => simp [List.intercalate]
  | cons y ys ih =>
    have := ih y
    simp only [List.intercalate, List.intersperse] at this ⊢
    simp [this]

theorem appendNames_nil (names : List (List Char)) :
    appendNames [] names
      = ", ".toList.intercalate (names.map (fun x => "<i>".toList ++ x ++ "</i>".toList)) := by
  cases names with
  | nil => rfl
  | cons x names =>
    rw [List.map_cons, intercalate_cons]
    have := appendNames_of_ne names ("<i>".toList ++ x ++ "</i>".toList) (by simp)
    simp only [appendNames, List.foldl_cons] at this ⊢
    simp only [ne_eq, not_true_eq_false, if_false, List.nil_append]
    rw [this, List.map_map]
    rfl

theorem foldl_saveArg_list (n : Nvm) :
    ∀ (args : List WebArg) (s : Cfg) (list : List Char), s._nvm_ = some n →
      (args.foldl (Cfg.saveArg L) (s, list)).2
        = appendNames list
            ((args.filter (fun a => n.find (c_str a.argName) != -1)).map (fun a => a.argName)) := by
  intro args
  induction args with
  | nil => intro s list _; rfl
  | cons a args ih =>
    intro s list h
    by_cases hk : n.find (c_str a.argName) = -1
    · rw [List.foldl_cons, saveArg_of_some L s n list a h, if_pos hk, ih s list h,
        List.filter_cons_of_neg (by simp [hk])]
    · rw [List.filter_cons_of_pos (by simp [hk]), List.foldl_cons,
        saveArg_of_some L s n list a h, if_neg hk, ih _ _ (by rw [written_nvm]; exact h)]
      simp [appendNames]

end

section
variable (L : Nat)

theorem handle_save_eq (s : Cfg) (args : List WebArg) :
    s._handle_save L args =
      { (args.foldl (Cfg.saveArg L) (s, [])).1 with
          sent := (args.foldl (Cfg.saveArg L) (s, [])).1.sent ++
            [{ code := 200, task := "Saving configuration".toList,
               list := if (args.foldl (Cfg.saveArg L) (s, [])).2 = [] then "Nothing to save.".toList
                       else "Saving ".toList ++ (args.foldl (Cfg.saveArg L) (s, [])).2 }]
          _restart := true } := rfl

/-- Constructing the store commutes with sending a page and requesting the restart. -/
theorem nvm_snd_page (t : Cfg) (r : Response) (b : Bool) :
    (({ t with sent := t.sent ++ [r], _restart := b } : Cfg)._nvm L).2
      = { (t._nvm L).2 with sent := (t._nvm L).2.sent ++ [r], _restart := b } := by
  unfold Cfg._nvm
  cases h : t._nvm_ <;> simp [h, Cfg.newBuffer]

theorem foldl_saveArg_sent (n : Nvm) :
    ∀ (args : List WebArg) (s : Cfg) (list : List Char), s._nvm_ = some n →
      (args.foldl (Cfg.saveArg L) (s, list)).1.sent = s.sent := by
  intro args
  induction args with
  | nil => intro s list _; rfl
  | cons a args ih =>
    intro s list h
    rw [List.foldl_cons, saveArg_of_some L s n list a h]
    split
    · exact ih _ _ h
    · rw [ih _ _ (by rw [written_nvm]; exact h)]
      rfl

end

section
variable (L : Nat)

theorem memcpy_memcpy (d : List Char) (u v : List Char) (ju jv : Nat → Char) :
    memcpy (memcpy d (c_str u ++ (List.range L).map ju) L) (c_str v ++ (List.range L).map jv) L
      = memcpy d (c_str v ++ (List.range L).map jv) L := by
  unfold memcpy
  congr 1
  have hl : ((c_str u ++ (List.range L).map ju).take L).length = L := by
    simp only [List.length_take, c_str, List.length_append, List.length_map, List.length_range,
      List.length_singleton]
    omega
  rw [List.drop_append_eq_append_drop, hl, List.drop_of_length_le (by omega)]
  simp

theorem put_put (n : Nvm) (e : Eeprom) (ix : Int) (u v : List Char) :
    n.put (n.put e ix u) ix v = n.put e ix v := by
  unfold Nvm.put
  split
  · simp [List.set_set]
  · rfl

theorem put_comm (n : Nvm) (e : Eeprom) (ix jx : Int) (u v : List Char)
    (hi : 0 ≤ ix) (hj : 0 ≤ jx) (hne : ix ≠ jx) :
    n.put (n.put e ix u) jx v = n.put (n.put e jx v) ix u := by
  unfold Nvm.put
  have hne2 : ix.toNat ≠ jx.toNat := by omega
  split <;> split <;> simp [List.set_comm _ _ _ hne2]

/-- Two writes to the same index: the later one stands. -/
theorem written_written (s : Cfg) (n : Nvm) (ix : Int) (a b : WebArg) :
    (s.written L n ix a).written L n ix b = s.written L n ix b := by
  simp only [Cfg.written, put_put]
  congr 1
  by_cases h : ix.toNat < s._vals.length
  · simp only [List.getD_eq_getElem?_getD, List.getElem?_set_self h, List.set_set,
      Option.getD_some, memcpy_memcpy]
  · have hs : ∀ x, s._vals.set ix.toNat x = s._vals :=
      fun x => List.set_eq_of_length_le (by omega)
    simp only [hs]

/-- Two writes to different indices can be swapped. -/
theorem written_comm (s : Cfg) (n : Nvm) (ix jx : Int) (a b : WebArg)
    (hi : 0 ≤ ix) (hj : 0 ≤ jx) (hne : ix ≠ jx) :
    (s.written L n ix a).written L n jx b = (s.written L n jx b).written L n ix a := by
  have hne2 : ix.toNat ≠ jx.toNat := by omega
  simp only [Cfg.written, put_comm n _ ix jx _ _ hi hj hne]
  congr 1
  rw [List.getD_eq_getElem?_getD, List.getD_eq_getElem?_getD, List.getD_eq_getElem?_getD,
    List.getD_eq_getElem?_getD, List.getElem?_set_ne hne2, List.getElem?_set_ne (Ne.symm hne2),
    List.set_comm _ _ _ hne2]

theorem saved_nvm (n : Nvm) (s : Cfg) (a : WebArg) : (s.saved L n a)._nvm_ = s._nvm_ := by
  unfold Cfg.saved
  split <;> rfl

theorem foldl_saved_nvm (n : Nvm) (args : List WebArg) :
    ∀ s : Cfg, (args.foldl (Cfg.saved L n) s)._nvm_ = s._nvm_ := by
  induction args with
  | nil => intro s; rfl
  | cons a args ih => intro s; rw [List.foldl_cons, ih, saved_nvm]

theorem foldl_saveArg_fst (n : Nvm) :
    ∀ (args : List WebArg) (s : Cfg) (list : List Char), s._nvm_ = some n →
      (args.foldl (Cfg.saveArg L) (s, list)).1 = args.foldl (Cfg.saved L n) s := by
  intro args
  induction args with
  | nil => intro s list _; rfl
  | cons a args ih =>
    intro s list h
    rw [List.foldl_cons, List.foldl_cons, saveArg_of_some L s n list a h]
    unfold Cfg.saved
    split
    · exact ih _ _ h
    · exact ih _ _ (by rw [written_nvm]; exact h)

/-- A write by `a` is masked by a later write by `a`. -/
theorem saved_foldl_saved (n : Nvm) (a : WebArg) (args : List WebArg) :
    ∀ s : Cfg, (args.foldl (Cfg.saved L n) (s.saved L n a)).saved L n a
      = (args.foldl (Cfg.saved L n) s).saved L n a := by
  induction args with
  | nil =>
    intro s
    simp only [List.foldl_nil]
    unfold Cfg.saved
    split
    · rfl
    · exact written_written L s n _ a a
  | cons b args ih =>
    intro s
    simp only [List.foldl_cons]
    by_cases ha : n.find (c_str a.argName) = -1
    · have : ∀ t : Cfg, t.saved L n a = t := fun t => by simp [Cfg.saved, ha]
      rw [this, this, this]
    · by_cases hb : n.find (c_str b.argName) = -1
      · have : ∀ t : Cfg, t.saved L n b = t := fun t => by simp [Cfg.saved, hb]
        rw [this, this]
        exact ih s
      · have ha0 : 0 ≤ n.find (c_str a.argName) := by
          rcases find_range n (c_str a.argName) with h | h
          · exact absurd h ha
          · exact h.1
        have hb0 : 0 ≤ n.find (c_str b.argName) := by
          rcases find_range n (c_str b.argName) with h | h
          · exact absurd h hb
          · exact h.1
        by_cases hab : n.find (c_str a.argName) = n.find (c_str b.argName)
        · have : (s.saved L n a).saved L n b = s.saved L n b := by
            simp only [Cfg.saved, ha, hb, if_false]
            rw [hab]
            exact written_written L s n _ a b
          rw [this]
        · have : (s.saved L n a).saved L n b = (s.saved L n b).saved L n a := by
            simp only [Cfg.saved, ha, hb, if_false]
            exact written_comm L s n _ _ a b ha0 hb0 hab
          rw [this]
          exact ih _

/-- Running the rounds of `_handle_save` twice leaves what one run leaves. -/
theorem foldl_saved_idem (n : Nvm) (args : List WebArg) :
    ∀ s : Cfg, args.foldl (Cfg.saved L n) (args.foldl (Cfg.saved L n) s)
      = args.foldl (Cfg.saved L n) s := by
  induction args using List.reverseRecOn with
  | nil => intro s; rfl
  | append_singleton args a ih =>
    intro s
    simp only [List.foldl_append, List.foldl_cons, List.foldl_nil]
    rw [saved_foldl_saved, ih]

end

section
variable (L : Nat)

theorem saved_page (n : Nvm) (s : Cfg) (a : WebArg) (rs : List Response) (b : Bool) :
    ({ s with sent := rs, _restart := b } : Cfg).saved L n a
      = { s.saved L n a with sent := rs, _restart := b } := by
  unfold Cfg.saved
  split <;> rfl

theorem foldl_saved_page (n : Nvm) (args : List WebArg) (rs : List Response) (b : Bool) :
    ∀ s : Cfg, args.foldl (Cfg.saved L n) { s with sent := rs, _restart := b }
      = { args.foldl (Cfg.saved L n) s with sent := rs, _restart := b } := by
  induction args with
  | nil => intro s; rfl
  | cons a args ih =>
    intro s
    rw [List.foldl_cons, List.foldl_cons, saved_page, ih]

/-- The rounds of `_handle_save` for a list that is not empty: the store is constructed
first, then each round changes the state alone. -/
theorem foldl_saveArg_cons (s : Cfg) (list : List Char) (a : WebArg) (args : List WebArg) :
    ((a :: args).foldl (Cfg.saveArg L) (s, list)).1
      = (a :: args).foldl (Cfg.saved L s.store) (s._nvm L).2 := by
  rw [List.foldl_cons, saveArg_eq, ← List.foldl_cons (f := Cfg.saveArg L),
    foldl_saveArg_fst L s.store _ _ _ (nvm_snd_store L s)]

end

section
variable (L : Nat)

theorem cstr_append_nul_any (v r : List Char) : cstr (v ++ NUL :: r) = cstr v := by
  induction v with
  | nil => simp [cstr, List.takeWhile]
  | cons c v ih =>
    simp only [cstr, List.cons_append, List.takeWhile_cons] at *
    split
    · rw [ih]
    · rfl

theorem drop_memcpy (d v : List Char) (J : List Char) (hJ : J.length = L) :
    (memcpy d (c_str v ++ J) L).drop L = d.drop L := by
  unfold memcpy
  have hl : ((c_str v ++ J).take L).length = L := by
    simp only [List.length_take, c_str, List.length_append, List.length_singleton, hJ]
    omega
  rw [List.drop_append_eq_append_drop, hl, List.drop_of_length_le (by omega)]
  simp

/-- The string in the buffer after the `memcpy` of `_handle_save` does not depend on the
junk behind the value, nor on what the first `L` bytes of the buffer were. -/
theorem cstr_memcpy_junk (d d2 v : List Char) (J J2 : List Char)
    (hd : d.drop L = d2.drop L) :
    cstr (memcpy d (c_str v ++ J) L) = cstr (memcpy d2 (c_str v ++ J2) L) := by
  unfold memcpy c_str
  by_cases hv : v.length < L
  · have h1 : ∀ K : List Char, (v ++ [NUL] ++ K).take L
        = v ++ NUL :: K.take (L - v.length - 1) := by
      intro K
      rw [List.append_assoc, List.take_append_eq_append_take, List.take_of_length_le (by omega)]
      congr 1
      have : L - v.length = (L - v.length - 1) + 1 := by omega
      rw [this]
      simp
    rw [h1, h1, List.append_assoc, List.append_assoc]
    simp only [List.cons_append]
    rw [cstr_append_nul_any, cstr_append_nul_any]
  · have h1 : ∀ K : List Char, (v ++ [NUL] ++ K).take L = v.take L := by
      intro K
      rw [List.append_assoc, List.take_append_eq_append_take]
      have : L - v.length = 0 := by omega
      simp [this]
    rw [h1, h1, hd]

end

/-! ## Lemmas on the accessors -/

section
variable (L : Nat)

theorem getval_fst (s : Cfg) (ix : Int) :
    (s.getval L ix).1 =
      if 0 ≤ ix ∧ ix < s.store.count then some ((s._nvm L).2._vals.getD ix.toNat []) else none := by
  unfold Cfg.getval
  simp only [nvm_fst]

theorem getval_snd (s : Cfg) (ix : Int) : (s.getval L ix).2 = (s._nvm L).2 := rfl

theorem getvalName_eq (s : Cfg) (p : List Char) :
    s.getvalName L p = (s._nvm L).2.getval L (s.store.find p) := by
  unfold Cfg.getvalName
  simp only [nvm_fst]

theorem getval_nvm_snd (s : Cfg) (ix : Int) :
    (s._nvm L).2.getval L ix = s.getval L ix := by
  rw [getval_of_some L _ _ _ (nvm_snd_store L s)]
  unfold Cfg.getval
  simp only [nvm_fst]

/-- The cache that `_nvm()` builds on first use: buffer `i` is what `get(i)` yields. -/
theorem nvm_snd_vals_of_none (s : Cfg) (h : s._nvm_ = none) (i : Nat)
    (hi : (i : Int) < s.store.count) :
    (s._nvm L).2._vals.getD i []
      = s.store.get (Nvm.new s._fields s.eeprom).2 i (s.newBuffer L i) := by
  unfold Cfg._nvm
  simp only [h]
  have hst : s.store = (Nvm.new s._fields s.eeprom).1 := by simp [Cfg.store, h]
  rw [hst] at hi ⊢
  have hi2 : i < (Nvm.new s._fields s.eeprom).1.count.toNat := by omega
  simp [List.getD_eq_getElem?_getD, List.getElem?_map, List.getElem?_range hi2]

theorem cstr_get (n : Nvm) (e : Eeprom) (ix : Int) (buf : List Char)
    (h : 0 ≤ ix ∧ ix < n.count) :
    cstr (n.get e ix buf) =
      match e.regions.getD ix.toNat none with
      | some v => cstr v
      | none => cstr (n.fields.getD ix.toNat ⟨[], [], 0, []⟩).dft := by
  unfold Nvm.get
  rw [if_pos h]
  cases e.regions.getD ix.toNat none <;> simp only [cstr_strcpy]

end

/-! ## Lemmas on the configuration flag -/

section
variable (L : Nat)

theorem saved_cfg (n : Nvm) (s : Cfg) (a : WebArg) : (s.saved L n a)._cfg = s._cfg := by
  unfold Cfg.saved
  split <;> rfl

theorem foldl_saved_cfg (n : Nvm) (args : List WebArg) :
    ∀ s : Cfg, (args.foldl (Cfg.saved L n) s)._cfg = s._cfg := by
  induction args with
  | nil => intro s; rfl
  | cons a args ih => intro s; rw [List.foldl_cons, ih, saved_cfg]

theorem handle_save_cfg (s : Cfg) (args : List WebArg) :
    (s._handle_save L args)._cfg = s._cfg := by
  cases args with
  | nil => rfl
  | cons a args =>
    rw [handle_save_eq]
    show ((a :: args).foldl (Cfg.saveArg L) (s, [])).1._cfg = s._cfg
    rw [foldl_saveArg_cons, foldl_saved_cfg, (nvm_snd_frame L s).2.1]

theorem handle_config_cfg (s : Cfg) : (s._handle_config L)._cfg = s._cfg := by
  unfold Cfg._handle_config
  show (s._fields.foldl
    (fun (t : Cfg) (field : NvmField) => if field.len = 0 then t else (t._nvm L).2) s)._cfg = s._cfg
  generalize s._fields = fs
  induction fs generalizing s with
  | nil => rfl
  | cons f fs ih =>
    rw [List.foldl_cons, ih]
    split
    · rfl
    · exact (nvm_snd_frame L s).2.1

theorem handleClient_cfg (s : Cfg) (req : Option Request) :
    (s.handleClient L req)._cfg = s._cfg := by
  unfold Cfg.handleClient
  cases req with
  | none => rfl
  | some r =>
    simp only []
    split
    · exact handle_config_cfg L s
    · split
      · exact handle_save_cfg L s r.args
      · split <;> rfl

theorem loop_cfg (s t : Cfg) (req : Option Request) (h : s.loop L req = some t) :
    t._cfg = s._cfg := by
  unfold Cfg.loop at h
  cases hl : incr s._loop with
  | none => simp [hl] at h
  | some l =>
    simp only [hl] at h
    have hf : (({ s with _loop := l } : Cfg).flash)._cfg = s._cfg := (flash_pins _).1
    split at h
    · cases h
      exact hf
    · split at h
      · cases h
      · cases h
        show (Cfg.handleClient L _ req)._cfg = s._cfg
        rw [handleClient_cfg, hf]

theorem check_cfg (s t : Cfg) (cfgwait butpin : Int) (h : s.check cfgwait butpin = some t)
    (hs : s._cfg = true) : t._cfg = true := by
  unfold Cfg.check at h
  exact ((checkLoop_reads _ _ _ _ _ _ h).2).2 (Or.inl hs)

theorem step_cfg (s t : Cfg) (op : Op) (h : s.step L op = some t) (hs : s._cfg = true) :
    t._cfg = true := by
  cases op with
  | check cfgwait butpin => exact check_cfg s t cfgwait butpin h hs
  | setup => cases h; exact hs
  | loop req => rw [loop_cfg L s t req h]; exact hs
  | getval ix =>
    simp only [Cfg.step, Option.some.injEq] at h
    subst h
    rw [getval_snd, (nvm_snd_frame L s).2.1]; exact hs
  | getvalName name =>
    simp only [Cfg.step, Option.some.injEq] at h
    subst h
    rw [getvalName_eq, getval_snd, (nvm_snd_frame L _).2.1, (nvm_snd_frame L s).2.1]; exact hs
  | handle_config =>
    simp only [Cfg.step, Option.some.injEq] at h
    subst h
    rw [handle_config_cfg]; exact hs
  | handle_save args =>
    simp only [Cfg.step, Option.some.injEq] at h
    subst h
    rw [handle_save_cfg]; exact hs
  | handle_restart => cases h; exact hs
  | handle_404 => cases h; exact hs

theorem run_cfg (ops : List Op) :
    ∀ (s t : Cfg), s.run L ops = some t → s._cfg = true → t._cfg = true := by
  induction ops with
  | nil => intro s t h hs; cases h; exact hs
  | cons op ops ih =>
    intro s t h hs
    simp only [Cfg.run] at h
    cases h1 : s.step L op with
    | none => simp [h1] at h
    | some u =>
      simp only [h1, Option.bind] at h
      exact ih u t h (step_cfg L s u op h1 hs)

end

/-! ## Lemmas on saving twice -/

section
variable (L : Nat)

/-- Running `_handle_save` a second time with the very same arguments leaves store,
cache and restart flag as the first run left them. -/
theorem handle_save_twice (s : Cfg) (args : List WebArg) :
    ((s._handle_save L args)._handle_save L args).eeprom = (s._handle_save L args).eeprom ∧
    ((s._handle_save L args)._handle_save L args)._vals = (s._handle_save L args)._vals ∧
    ((s._handle_save L args)._handle_save L args)._restart = (s._handle_save L args)._restart := by
  cases args with
  | nil => exact ⟨rfl, rfl, rfl⟩
  | cons a args =>
    have h1 : ((s._handle_save L (a :: args))._nvm_) = some s.store := by
      rw [handle_save_eq, foldl_saveArg_cons]
      show ((a :: args).foldl (Cfg.saved L s.store) (s._nvm L).2)._nvm_ = some s.store
      rw [foldl_saved_nvm, nvm_snd_store]
    have h2 : ((a :: args).foldl (Cfg.saveArg L) (s._handle_save L (a :: args), [])).1
        = { (a :: args).foldl (Cfg.saved L s.store) (s._nvm L).2 with
              sent := ((a :: args).foldl (Cfg.saved L s.store) (s._nvm L).2).sent ++
                [{ code := 200, task := "Saving configuration".toList,
                   list := if ((a :: args).foldl (Cfg.saveArg L) (s, [])).2 = []
                           then "Nothing to save.".toList
                           else "Saving ".toList ++ ((a :: args).foldl (Cfg.saveArg L) (s, [])).2 }]
              _restart := true } := by
      rw [foldl_saveArg_fst L s.store _ _ _ h1, handle_save_eq, foldl_saveArg_cons,
        foldl_saved_page, foldl_saved_idem]
    have e1 : ∀ (t : Cfg) (as : List WebArg),
        (t._handle_save L as).eeprom = (as.foldl (Cfg.saveArg L) (t, [])).1.eeprom :=
      fun _ _ => rfl
    have e2 : ∀ (t : Cfg) (as : List WebArg),
        (t._handle_save L as)._vals = (as.foldl (Cfg.saveArg L) (t, [])).1._vals :=
      fun _ _ => rfl
    refine ⟨?_, ?_, rfl⟩
    · rw [e1, h2, e1, foldl_saveArg_cons]
    · rw [e2, h2, e2, foldl_saveArg_cons]

theorem sameValues_refl (t : Cfg) : t.SameValues L t := ⟨rfl, rfl, rfl, rfl, rfl⟩

theorem written_sameValues (t u : Cfg) (n : Nvm) (ix : Int) (a b : WebArg)
    (h : t.SameValues L u) (hab : SamePair a b) :
    (t.written L n ix a).SameValues L (u.written L n ix b) := by
  obtain ⟨h1, h2, h3, h4, h5⟩ := h
  obtain ⟨-, hv⟩ := hab
  have hd : (t._vals.getD ix.toNat []).drop L = (u._vals.getD ix.toNat []).drop L := by
    have e1 := List.getD_map (l := t._vals) (n := ix.toNat) (d := []) (List.drop L)
    have e2 := List.getD_map (l := u._vals) (n := ix.toNat) (d := []) (List.drop L)
    simp only [List.drop_nil] at e1 e2
    rw [← e1, ← e2, h4]
  refine ⟨h1, ?_, ?_, ?_, h5⟩
  · simp only [Cfg.written, h2, hv]
  · simp only [Cfg.written, List.map_set, h3]
    congr 1
    rw [hv]
    exact cstr_memcpy_junk L _ _ _ _ _ hd.symm
  · simp only [Cfg.written, List.map_set, h4]
    congr 1
    rw [drop_memcpy L _ _ _ (by simp), drop_memcpy L _ _ _ (by simp)]
    exact hd.symm

theorem saved_sameValues (t u : Cfg) (n : Nvm) (a b : WebArg)
    (h : t.SameValues L u) (hab : SamePair a b) :
    (t.saved L n a).SameValues L (u.saved L n b) := by
  unfold Cfg.saved
  rw [← hab.1]
  split
  · exact h
  · exact written_sameValues L t u n _ a b h hab

theorem foldl_saved_sameValues (n : Nvm) (args args2 : List WebArg)
    (hsame : List.Forall₂ SamePair args args2) :
    ∀ t u : Cfg, t.SameValues L u →
      (args.foldl (Cfg.saved L n) t).SameValues L (args2.foldl (Cfg.saved L n) u) := by
  induction hsame with
  | nil => intro t u h; exact h
  | cons hab _ ih =>
    intro t u h
    rw [List.foldl_cons, List.foldl_cons]
    exact ih _ _ (saved_sameValues L t u n _ _ h hab)

/-- Saving two lists of the same pairs from one state: the results agree on store,
strings of the cache and restart flag. -/
theorem handle_save_sameValues (s : Cfg) (args args2 : List WebArg)
    (hsame : List.Forall₂ SamePair args args2) :
    (s._handle_save L args).SameValues L (s._handle_save L args2) := by
  cases hsame with
  | nil => exact sameValues_refl L _
  | cons hab hrest =>
    rename_i a b as bs
    have h := foldl_saved_sameValues L s.store (a :: as) (b :: bs)
      (List.Forall₂.cons hab hrest) _ _ (sameValues_refl L (s._nvm L).2)
    rw [← foldl_saveArg_cons L s [] a as, ← foldl_saveArg_cons L s [] b bs] at h
    obtain ⟨h1, h2, h3, h4, -⟩ := h
    exact ⟨h1, h2, h3, h4, rfl⟩

end

/-! ## The invariant holds of every reachable state -/

section
variable (L : Nat)

theorem inv_new (appname : List Char) (fields : List NvmField) (seriallvl ledpin : Int)
    (eeprom : Eeprom) (heap : Nat → Nat → Char) (led : Int) (button : Nat → Int) :
    (Cfg.new appname fields seriallvl ledpin eeprom heap led button).Inv := by
  intro n h
  cases h

theorem inv_of_eq (s t : Cfg) (h1 : t._nvm_ = s._nvm_) (h2 : t._fields = s._fields)
    (h3 : t._vals.length = s._vals.length)
    (h4 : t.eeprom.regions.length = s.eeprom.regions.length) (h : s.Inv) : t.Inv := by
  intro n hn
  rw [h1] at hn
  rw [h2, h3, h4]
  exact h n hn

theorem inv_of_sameSession (s t : Cfg) (hst : s.SameSession t) (h : s.Inv) : t.Inv := by
  obtain ⟨-, a2, -, -, -, -, -, -, a9, a10, a11, -⟩ := hst
  exact inv_of_eq s t a9 a2 (by rw [a10]) (by rw [a11]) h

theorem put_regions_length (n : Nvm) (e : Eeprom) (ix : Int) (v : List Char) :
    (n.put e ix v).regions.length = e.regions.length := by
  unfold Nvm.put
  split
  · simp
  · rfl

theorem inv_saved (n : Nvm) (s : Cfg) (a : WebArg) (h : s.Inv) : (s.saved L n a).Inv := by
  unfold Cfg.saved
  split
  · exact h
  · exact inv_of_eq s _ rfl rfl (by simp [Cfg.written])
      (by simp only [Cfg.written]; exact put_regions_length _ _ _ _) h

theorem inv_foldl_saved (n : Nvm) (args : List WebArg) :
    ∀ s : Cfg, s.Inv → (args.foldl (Cfg.saved L n) s).Inv := by
  induction args with
  | nil => intro s h; exact h
  | cons a args ih => intro s h; exact ih _ (inv_saved L n s a h)

theorem inv_handle_save (s : Cfg) (args : List WebArg) (h : s.Inv) :
    (s._handle_save L args).Inv := by
  rw [handle_save_eq]
  refine inv_of_eq (args.foldl (Cfg.saveArg L) (s, [])).1 _ rfl rfl rfl rfl ?_
  cases args with
  | nil => exact h
  | cons a args =>
    rw [foldl_saveArg_cons]
    exact inv_foldl_saved L _ _ _ (nvm_snd_inv L s h)

theorem inv_handle_config (s : Cfg) (h : s.Inv) : (s._handle_config L).Inv := by
  unfold Cfg._handle_config
  refine inv_of_eq (s._fields.foldl
    (fun (t : Cfg) (field : NvmField) => if field.len = 0 then t else (t._nvm L).2) s)
    _ rfl rfl rfl rfl ?_
  generalize s._fields = fs
  induction fs generalizing s with
  | nil => exact h
  | cons f fs ih =>
    rw [List.foldl_cons]
    apply ih
    split
    · exact h
    · exact nvm_snd_inv L s h

theorem inv_handleClient (s : Cfg) (req : Option Request) (h : s.Inv) :
    (s.handleClient L req).Inv := by
  unfold Cfg.handleClient
  cases req with
  | none => exact h
  | some r =>
    simp only []
    split
    · exact inv_handle_config L s h
    · split
      · exact inv_handle_save L s r.args h
      · split
        · exact inv_of_eq s _ rfl rfl rfl rfl h
        · exact inv_of_eq s _ rfl rfl rfl rfl h

theorem inv_loop (s t : Cfg) (req : Option Request) (hl : s.loop L req = some t) (h : s.Inv) :
    t.Inv := by
  unfold Cfg.loop at hl
  cases hi : incr s._loop with
  | none => simp [hi] at hl
  | some l =>
    simp only [hi] at hl
    have hf : (({ s with _loop := l } : Cfg).flash).Inv :=
      inv_of_sameSession _ _ (flash_sameSession _) (inv_of_eq s _ rfl rfl rfl rfl h)
    split at hl
    · cases hl
      exact inv_of_eq _ _ rfl rfl rfl rfl hf
    · split at hl
      · cases hl
      · cases hl
        exact inv_of_eq _ _ rfl rfl rfl rfl (inv_handleClient L _ req hf)

/-- Every operation keeps the invariant. -/
theorem inv_step (s t : Cfg) (op : Op) (hst : s.step L op = some t) (h : s.Inv) : t.Inv := by
  cases op with
  | check cfgwait butpin =>
    simp only [Cfg.step, Cfg.check] at hst
    exact inv_of_sameSession _ _ (checkLoop_sameSession _ _ _ _ _ _ hst)
      (inv_of_eq s _ rfl rfl rfl rfl h)
  | setup => cases hst; exact inv_of_eq s _ rfl rfl rfl rfl h
  | loop req => exact inv_loop L s t req hst h
  | getval ix =>
    simp only [Cfg.step, Option.some.injEq] at hst
    subst hst
    rw [getval_snd]
    exact nvm_snd_inv L s h
  | getvalName name =>
    simp only [Cfg.step, Option.some.injEq] at hst
    subst hst
    rw [getvalName_eq, getval_snd]
    exact nvm_snd_inv L _ (nvm_snd_inv L s h)
  | handle_config =>
    simp only [Cfg.step, Option.some.injEq] at hst
    subst hst
    exact inv_handle_config L s h
  | handle_save args =>
    simp only [Cfg.step, Option.some.injEq] at hst
    subst hst
    exact inv_handle_save L s args h
  | handle_restart => cases hst; exact inv_of_eq s _ rfl rfl rfl rfl h
  | handle_404 => cases hst; exact inv_of_eq s _ rfl rfl rfl rfl h

/-- The invariant holds after every sequence of operations on a new object. -/
theorem inv_run (ops : List Op) :
    ∀ (s t : Cfg), s.run L ops = some t → s.Inv → t.Inv := by
  induction ops with
  | nil => intro s t h hs; cases h; exact hs
  | cons op ops ih =>
    intro s t h hs
    simp only [Cfg.run] at h
    cases h1 : s.step L op with
    | none => simp [h1] at h
    | some u =>
      simp only [h1, Option.bind] at h
      exact ih u t h (inv_step L s u op h1 hs)

end

/-! ## Lemmas on the tick and the restart flag -/

section
variable (L : Nat)

theorem sameTick_refl (s : Cfg) : s.SameTick s := ⟨rfl, rfl, rfl, rfl, rfl, rfl, rfl⟩

theorem sameTick_trans {s t u : Cfg} (h1 : s.SameTick t) (h2 : t.SameTick u) :
    s.SameTick u := by
  obtain ⟨a1, a2, a3, a4, a5, a6, a7⟩ := h1
  obtain ⟨b1, b2, b3, b4, b5, b6, b7⟩ := h2
  exact ⟨by rw [b1, a1], by rw [b2, a2], by rw [b3, a3], by rw [b4, a4], by rw [b5, a5],
    by rw [b6, a6], by rw [b7, a7]⟩

theorem nvm_snd_sameTick (s : Cfg) : s.SameTick (s._nvm L).2 := by
  unfold Cfg._nvm
  cases s._nvm_ <;> exact ⟨rfl, rfl, rfl, rfl, rfl, rfl, rfl⟩

theorem saved_sameTick (n : Nvm) (s : Cfg) (a : WebArg) : s.SameTick (s.saved L n a) := by
  unfold Cfg.saved
  split <;> exact ⟨rfl, rfl, rfl, rfl, rfl, rfl, rfl⟩

theorem saved_restart (n : Nvm) (s : Cfg) (a : WebArg) :
    (s.saved L n a)._restart = s._restart := by
  unfold Cfg.saved
  split <;> rfl

theorem foldl_saved_sameTick (n : Nvm) (args : List WebArg) :
    ∀ s : Cfg, s.SameTick (args.foldl (Cfg.saved L n) s) := by
  induction args with
  | nil => intro s; exact sameTick_refl s
  | cons a args ih =>
    intro s
    rw [List.foldl_cons]
    exact sameTick_trans (saved_sameTick L n s a) (ih _)

theorem handle_save_sameTick (s : Cfg) (args : List WebArg) :
    s.SameTick (s._handle_save L args) := by
  have h : s.SameTick (args.foldl (Cfg.saveArg L) (s, [])).1 := by
    cases args with
    | nil => exact sameTick_refl s
    | cons a args =>
      rw [foldl_saveArg_cons]
      exact sameTick_trans (nvm_snd_sameTick L s) (foldl_saved_sameTick L _ _ _)
  rw [handle_save_eq]
  exact h

theorem config_fold_sameTick (fs : List NvmField) :
    ∀ s : Cfg, s.SameTick (fs.foldl
      (fun (t : Cfg) (field : NvmField) => if field.len = 0 then t else (t._nvm L).2) s) := by
  induction fs with
  | nil => intro s; exact sameTick_refl s
  | cons f fs ih =>
    intro s
    rw [List.foldl_cons]
    refine sameTick_trans ?_ (ih _)
    split
    · exact sameTick_refl s
    · exact nvm_snd_sameTick L s

theorem config_fold_restart (fs : List NvmField) :
    ∀ s : Cfg, (fs.foldl
      (fun (t : Cfg) (field : NvmField) => if field.len = 0 then t else (t._nvm L).2) s)._restart
        = s._restart := by
  induction fs with
  | nil => intro s; rfl
  | cons f fs ih =>
    intro s
    rw [List.foldl_cons, ih]
    split
    · rfl
    · exact (nvm_snd_frame L s).2.2.1

theorem handle_config_sameTick (s : Cfg) : s.SameTick (s._handle_config L) :=
  config_fold_sameTick L s._fields s

theorem handle_config_restart (s : Cfg) : (s._handle_config L)._restart = s._restart :=
  config_fold_restart L s._fields s

theorem handleClient_sameTick (s : Cfg) (req : Option Request) :
    s.SameTick (s.handleClient L req) := by
  unfold Cfg.handleClient
  cases req with
  | none => exact sameTick_refl s
  | some r =>
    simp only []
    split
    · exact handle_config_sameTick L s
    · split
      · exact handle_save_sameTick L s r.args
      · split <;> exact ⟨rfl, rfl, rfl, rfl, rfl, rfl, rfl⟩

/-- The restart flag after a request is served: set by the save and restart handlers,
kept by the others. -/
theorem handleClient_restart (s : Cfg) (req : Option Request) :
    (s.handleClient L req)._restart = true →
      s._restart = true ∨
      ∃ r, req = some r ∧ (r.uri = "/save".toList ∨ r.uri = "/restart".toList) := by
  unfold Cfg.handleClient
  cases req with
  | none => intro h; exact Or.inl h
  | some r =>
    simp only []
    split
    · intro h
      rw [handle_config_restart] at h
      exact Or.inl h
    · split
      · rename_i hs
        intro _
        exact Or.inr ⟨r, rfl, Or.inl hs⟩
      · split
        · rename_i hr
          intro _
          exact Or.inr ⟨r, rfl, Or.inr hr⟩
        · intro h
          exact Or.inl h

theorem flash_served (s : Cfg) : s.flash.served = s.served := by
  unfold Cfg.flash
  split <;> rfl

/-- The tick when the restart flag is set: the restart is invoked, no request is served. -/
theorem loop_of_restart (s : Cfg) (req : Option Request) (hl : s._loop < INT_MAX)
    (hr : s._restart = true) :
    s.loop L req = some
      { ({ s with _loop := s._loop + 1 } : Cfg).flash with
          millis := ({ s with _loop := s._loop + 1 } : Cfg).flash.millis + 1000
          restarted := true } := by
  have hf : (({ s with _loop := s._loop + 1 } : Cfg).flash)._restart = true := by
    rw [(flash_sameSession _).2.2.2.2.2.1]
    exact hr
  unfold Cfg.loop
  simp only [incr_of_lt hl, hf, if_true]

/-- The tick when the restart flag is clear and the servers exist: one request is served. -/
theorem loop_of_clear (s : Cfg) (req : Option Request) (hl : s._loop < INT_MAX)
    (hr : s._restart = false) (hd : s._dnssrv = true) (hw : s._websrv = true) :
    s.loop L req = some
      { (({ ({ s with _loop := s._loop + 1 } : Cfg).flash with
              served := ({ s with _loop := s._loop + 1 } : Cfg).flash.served + 1 } :
            Cfg).handleClient L req) with
          millis := (({ ({ s with _loop := s._loop + 1 } : Cfg).flash with
              served := ({ s with _loop := s._loop + 1 } : Cfg).flash.served + 1 } :
            Cfg).handleClient L req).millis + CFG_FLASH_LOOP } := by
  have hss := flash_sameSession ({ s with _loop := s._loop + 1 } : Cfg)
  have hf : (({ s with _loop := s._loop + 1 } : Cfg).flash)._restart = false := by
    rw [hss.2.2.2.2.2.1]
    exact hr
  have hf2 : (({ s with _loop := s._loop + 1 } : Cfg).flash)._dnssrv = true := by
    rw [hss.2.2.2.2.2.2.2.1]
    exact hd
  have hf3 : (({ s with _loop := s._loop + 1 } : Cfg).flash)._websrv = true := by
    rw [hss.2.2.2.2.2.2.1]
    exact hw
  unfold Cfg.loop
  simp only [incr_of_lt hl, hf, hf2, hf3]
  simp

/-- When a tick returns: the counter can be incremented and, unless the restart is
requested, the servers exist. -/
theorem loop_isSome (s : Cfg) (req : Option Request) :
    (s.loop L req).isSome = true ↔
      s._loop < INT_MAX ∧ (s._restart = true ∨ (s._dnssrv = true ∧ s._websrv = true)) := by
  constructor
  · intro h
    by_cases hl : s._loop < INT_MAX
    · refine ⟨hl, ?_⟩
      by_cases hr : s._restart = true
      · exact Or.inl hr
      · right
        have hss := flash_sameSession ({ s with _loop := s._loop + 1 } : Cfg)
        have hf : (({ s with _loop := s._loop + 1 } : Cfg).flash)._restart = false := by
          rw [hss.2.2.2.2.2.1]
          simpa using hr
        unfold Cfg.loop at h
        simp only [incr_of_lt hl, hf] at h
        rw [hss.2.2.2.2.2.2.2.1, hss.2.2.2.2.2.2.1] at h
        by_contra hc
        have hc2 : s._dnssrv = false ∨ s._websrv = false := by
          cases hd : s._dnssrv <;> cases hw : s._websrv <;> simp [hd, hw] at hc ⊢
        simp [hc2] at h
    · unfold Cfg.loop at h
      have : incr s._loop = none := by simp [incr, hl]
      simp [this] at h
  · rintro ⟨hl, hr | ⟨hd, hw⟩⟩
    · rw [loop_of_restart L s req hl hr]
      rfl
    · cases hr : s._restart with
      | true => rw [loop_of_restart L s req hl hr]; rfl
      | false => rw [loop_of_clear L s req hl hr hd hw]; rfl

end

/-! ## The claims

In the statements `L` is the value of `NVM_MAX_LENZ`. A state `s` stands for the object
together with its board; `s.Inv` holds of every state reached from `Cfg.new`. -/

/-- C1 (as the code has it). Saving a value `v` longer than the length of field `i`
stores the first `len` bytes of `v`, but the cache is filled from `v` itself: the
string that `getval(i)` returns afterwards is not the truncated one, and it is `v`
whenever `v` is shorter than `NVM_MAX_LENZ`. -/
theorem save_too_long_cache (L : Nat) (s : Cfg) (i : Nat) (f : NvmField) (v : List Char)
    (junk : Nat → Char) (hinv : s.Inv) (hf : s.store.fields[i]? = some f)
    (hnd : (s.store.fields.map (fun g => cstr g.name)).Nodup)
    (hv : NUL ∉ v) (hlen : f.len < v.length) (hbuf : f.len < L) :
    (s._handle_save L [⟨cstr f.name, v, junk⟩]).eeprom.regions[i]?
      = some (some (v.take f.len)) ∧
    ∃ buf, ((s._handle_save L [⟨cstr f.name, v, junk⟩]).getval L i).1 = some buf ∧
      cstr buf ≠ v.take f.len ∧ (v.length < L → cstr buf = v) := by
  obtain ⟨h1, -, h3⟩ := save_single L s i f v junk hinv hf hnd
  rw [cstr_of_nul_free v hv] at h3
  refine ⟨h3, _, h1, ?_, ?_⟩
  · intro heq
    have hl := congrArg List.length heq
    rw [List.length_take] at hl
    by_cases hL : v.length < L
    · rw [cstr_memcpy_short _ v junk L hv hL] at hl
      omega
    · have := cstr_memcpy_long ((s._nvm L).2._vals.getD i []) v junk L hv (by omega)
      omega
  · intro hL
    exact cstr_memcpy_short _ v junk L hv hL

/-- Witness of C1: the default fields, `ssid` given 33 characters, buffers of 64 bytes. -/
theorem save_too_long_cache_witness :
    ((demo (fun _ => 0))._handle_save 64
        [⟨cstr "ssid".toList, List.replicate 33 'a', fun _ => 'j'⟩]).eeprom.regions[0]?
      = some (some ((List.replicate 33 'a').take 32)) ∧
    ∃ buf, (((demo (fun _ => 0))._handle_save 64
        [⟨cstr "ssid".toList, List.replicate 33 'a', fun _ => 'j'⟩]).getval 64 0).1 = some buf ∧
      cstr buf ≠ (List.replicate 33 'a').take 32 ∧
      ((List.replicate 33 'a').length < 64 → cstr buf = List.replicate 33 'a') :=
  save_too_long_cache 64 (demo (fun _ => 0)) 0 (CfgFieldsDefault.getD 0 ⟨[], [], 0, []⟩)
    (List.replicate 33 'a') (fun _ => 'j')
    (by intro n h; cases h) (by decide) (by decide) (by decide) (by decide) (by decide)

/-- C2. On an object whose configuration flag is false (as after construction), for
every `cfgwait`: whenever `check` returns, `cfgmode()` is true exactly when one of the
button values read in the wait loop differs from the value read at entry, and it is
false when the button never changes; and `check` does return for every `cfgwait`
below `INT_MAX`. -/
theorem check_trigger (s : Cfg) (cfgwait butpin : Int) (hnew : s._cfg = false) :
    (∀ t, s.check cfgwait butpin = some t →
      (t.cfgmode = true ↔
        ∃ k, s.reads < k ∧ k < t.reads ∧ s.button k ≠ s.button s.reads) ∧
      ((∀ k, s.button k = s.button s.reads) → t.cfgmode = false)) ∧
    (cfgwait < INT_MAX → ∃ t, s.check cfgwait butpin = some t) := by
  constructor
  · intro t h
    unfold Cfg.check at h
    obtain ⟨-, hiff⟩ := checkLoop_reads _ _ _ _ _ _ h
    simp only [hnew, Bool.false_eq_true, false_or] at hiff
    have hiff2 : t.cfgmode = true ↔
        ∃ k, s.reads < k ∧ k < t.reads ∧ s.button k ≠ s.button s.reads := by
      unfold Cfg.cfgmode
      rw [hiff]
      constructor
      · rintro ⟨k, h1, h2, h3⟩; exact ⟨k, by omega, h2, h3⟩
      · rintro ⟨k, h1, h2, h3⟩; exact ⟨k, by omega, h2, h3⟩
    refine ⟨hiff2, ?_⟩
    intro hconst
    cases hc : t.cfgmode with
    | false => rfl
    | true =>
      obtain ⟨k, -, -, hk⟩ := hiff2.1 hc
      exact absurd (hconst k) hk
  · intro hmax
    unfold Cfg.check
    exact checkLoop_returns cfgwait _ hmax _ _ _ (by simp)

/-- Witness of C2: the demo object with the button pressed at its third reading;
`check` returns with the flag set. -/
theorem check_trigger_witness :
    ∃ t, (demo (fun k => if k = 3 then 1 else 0)).check 100 0 = some t ∧ t.cfgmode = true := by
  obtain ⟨t, ht⟩ := (check_trigger (demo (fun k => if k = 3 then 1 else 0)) 100 0 rfl).2
    (by decide)
  have hr : ((demo (fun k => if k = 3 then 1 else 0)).check 100 0).map (fun u => u.reads)
      = some 4 := by decide
  rw [ht] at hr
  have hr4 : t.reads = 4 := by simpa using hr
  refine ⟨t, ht, ?_⟩
  refine ((check_trigger (demo (fun k => if k = 3 then 1 else 0)) 100 0 rfl).1 t ht).1.2
    ⟨3, by decide, ?_, by decide⟩
  rw [hr4]
  decide

/-- C3 (as the code has it). While the button keeps its baseline value, `check` reads the
button and waits `CFG_FLASH_SETUP` ms once per round, and the rounds number half of
`cfgwait` (rounded up), since `waited` is incremented twice per round. -/
theorem check_wait_rounds (s : Cfg) (cfgwait butpin : Int) (hnew : s._cfg = false)
    (hmax : cfgwait < INT_MAX)
    (hbut : ∀ k, s.button k = s.button s.reads) :
    ∃ t, s.check cfgwait butpin = some t ∧ t.cfgmode = false ∧
      t.reads = s.reads + 1 + ((cfgwait + 1) / 2).toNat ∧
      t.millis = s.millis + CFG_FLASH_SETUP * ((cfgwait + 1) / 2).toNat ∧
      t.flashes = s.flashes + (if 0 ≤ s._ledpin then ((cfgwait + 1) / 2).toNat else 0) := by
  obtain ⟨t, ht⟩ := (show ∃ t, s.check cfgwait butpin = some t from checkLoop_returns cfgwait _ hmax _ _ _ (by simp))
  refine ⟨t, ht, ?_⟩
  unfold Cfg.check at ht
  have := checkLoop_constant _ _ _ _ _ _ ht (by simpa using hnew) (by simpa using hbut)
  simpa [Cfg.cfgmode, Nat.add_assoc] using this

/-- Witness of C3: with the default `cfgwait` of 100 the demo object reads the button
and waits 50 times, 2500 ms in all. -/
theorem check_wait_rounds_witness :
    ∃ t, (demo (fun _ => 0)).check 100 0 = some t ∧ t.cfgmode = false ∧
      t.reads = 51 ∧ t.millis = 2500 ∧ t.flashes = 50 := by
  obtain ⟨t, h1, h2, h3, h4, h5⟩ :=
    check_wait_rounds (demo (fun _ => 0)) 100 0 rfl (by decide) (fun _ => rfl)
  exact ⟨t, h1, h2, h3, h4, h5⟩

/-- C4. Saving the single pair made of the name of field `i` and a string `v` no longer
than the field: afterwards `getval(i)` and `getval(name)` return a buffer holding
exactly the string `v`. -/
theorem save_round_trip (L : Nat) (s : Cfg) (i : Nat) (f : NvmField) (v : List Char)
    (junk : Nat → Char) (hinv : s.Inv) (hf : s.store.fields[i]? = some f)
    (hnd : (s.store.fields.map (fun g => cstr g.name)).Nodup)
    (hv : NUL ∉ v) (hlen : v.length ≤ f.len) (hbuf : f.len < L) :
    (((s._handle_save L [⟨cstr f.name, v, junk⟩]).getval L i).1).map cstr = some v ∧
    (((s._handle_save L [⟨cstr f.name, v, junk⟩]).getvalName L f.name).1).map cstr = some v := by
  obtain ⟨h1, h2, -⟩ := save_single L s i f v junk hinv hf hnd
  rw [h1, h2]
  simp [cstr_memcpy_short _ v junk L hv (by omega)]

/-- Witness of C4: the default fields, `password` set to `secret`, buffers of 64 bytes. -/
theorem save_round_trip_witness :
    ((((demo (fun _ => 0))._handle_save 64
        [⟨cstr "password".toList, "secret".toList, fun _ => 'j'⟩]).getval 64 1).1).map cstr
      = some "secret".toList ∧
    ((((demo (fun _ => 0))._handle_save 64
        [⟨cstr "password".toList, "secret".toList, fun _ => 'j'⟩]).getvalName 64
          "password".toList).1).map cstr
      = some "secret".toList :=
  save_round_trip 64 (demo (fun _ => 0)) 1 (CfgFieldsDefault.getD 1 ⟨[], [], 0, []⟩)
    "secret".toList (fun _ => 'j')
    (by intro n h; cases h) (by decide) (by decide) (by decide) (by decide) (by decide)

/-- C5. `_handle_save` on any list of pairs ends, once the store is constructed, in the
very state reached by saving only the pairs whose name the store knows; when the store
exists already the two states are equal outright. The page sent lists exactly the known
names in the order of submission. -/
theorem save_skips_unknown (L : Nat) (s : Cfg) (args : List WebArg) :
    ((s._handle_save L args)._nvm L).2
      = ((s._handle_save L
          (args.filter (fun a => s.store.find (c_str a.argName) != -1)))._nvm L).2 ∧
    (s._nvm_ ≠ none →
      s._handle_save L args
        = s._handle_save L (args.filter (fun a => s.store.find (c_str a.argName) != -1))) ∧
    (s._handle_save L args).sent = s.sent ++
      [{ code := 200, task := "Saving configuration".toList,
         list :=
          if (args.filter (fun a => s.store.find (c_str a.argName) != -1)).isEmpty
          then "Nothing to save.".toList
          else "Saving ".toList ++ ", ".toList.intercalate
            ((args.filter (fun a => s.store.find (c_str a.argName) != -1)).map
              (fun a => "<i>".toList ++ a.argName ++ "</i>".toList)) }] := by
  have hs := nvm_snd_store L s
  refine ⟨?_, ?_, ?_⟩
  · rw [handle_save_eq, handle_save_eq, nvm_snd_page, nvm_snd_page]
    obtain ⟨h1, h2⟩ := foldl_saveArg_force L args s []
    obtain ⟨h3, h4⟩ := foldl_saveArg_force L
      (args.filter (fun a => s.store.find (c_str a.argName) != -1)) s []
    rw [h1, h2, h3, h4, foldl_saveArg_filter L s.store args _ _ hs]
  · intro hne
    obtain ⟨n, hn⟩ := Option.ne_none_iff_exists'.1 hne
    have hst : s.store = n := by simp [Cfg.store, hn]
    rw [handle_save_eq, handle_save_eq, hst, ← foldl_saveArg_filter L n args s [] hn]
  · rw [handle_save_eq]
    simp only []
    obtain ⟨h1, h2⟩ := foldl_saveArg_force L args s []
    have h5 : (args.foldl (Cfg.saveArg L) (s, [])).1.sent = s.sent := by
      have := foldl_saveArg_sent L s.store args _ [] hs
      rw [← h1] at this
      rw [(nvm_snd_frame L _).2.2.2.2.1, (nvm_snd_frame L _).2.2.2.2.1] at this
      exact this
    rw [h5, h2, foldl_saveArg_list L s.store args _ _ hs, appendNames_nil, List.map_map]
    congr 3
    cases hk : args.filter (fun a => s.store.find (c_str a.argName) != -1) with
    | nil => simp [List.intercalate]
    | cons a as =>
      have : ", ".toList.intercalate
          (List.map ((fun x => "<i>".toList ++ x ++ "</i>".toList) ∘ fun a => a.argName) (a :: as))
          ≠ [] := by
        rw [List.map_cons, intercalate_cons]
        simp
      simp only [this, if_false, List.isEmpty_cons, Bool.false_eq_true]
      rfl

/-- Witness of C5: on the demo object with its store constructed, saving `ssid` along
with the unknown `foo` ends in the state reached by saving `ssid` alone. -/
theorem save_skips_unknown_witness :
    ((demo (fun _ => 0))._nvm 64).2._handle_save 64
        [⟨"ssid".toList, "HomeNet".toList, fun _ => 'j'⟩, ⟨"foo".toList, "bar".toList, fun _ => 'j'⟩]
      = ((demo (fun _ => 0))._nvm 64).2._handle_save 64
        [⟨"ssid".toList, "HomeNet".toList, fun _ => 'j'⟩] :=
  (save_skips_unknown 64 ((demo (fun _ => 0))._nvm 64).2
    [⟨"ssid".toList, "HomeNet".toList, fun _ => 'j'⟩, ⟨"foo".toList, "bar".toList, fun _ => 'j'⟩]).2.1
    (by decide)

/-- C6. After `_handle_save`, whatever the submitted pairs, the restart flag is true. -/
theorem save_requests_restart (L : Nat) (s : Cfg) (args : List WebArg) :
    (s._handle_save L args)._restart = true := by
  unfold Cfg._handle_save
  rfl

/-- C7. Running `_handle_save` a second time with the same pairs (whatever memory lies
behind the submitted values this time) leaves the contents of the store, the strings
in the cache of values and the restart flag as the first run left them. -/
theorem save_idempotent (L : Nat) (s : Cfg) (args args2 : List WebArg)
    (hsame : List.Forall₂ SamePair args args2) :
    ((s._handle_save L args)._handle_save L args2).eeprom = (s._handle_save L args).eeprom ∧
    ((s._handle_save L args)._handle_save L args2)._vals.map cstr
      = (s._handle_save L args)._vals.map cstr ∧
    ((s._handle_save L args)._handle_save L args2)._restart
      = (s._handle_save L args)._restart := by
  obtain ⟨-, h2, h3, -, h5⟩ := handle_save_sameValues L (s._handle_save L args) args args2 hsame
  obtain ⟨k1, k2, k3⟩ := handle_save_twice L s args
  exact ⟨by rw [h2, k1], by rw [h3, k2], by rw [h5, k3]⟩

/-- Witness of C7: the demo object, `ssid` saved twice as `HomeNet` along with the
unknown `foo`, with different memory behind the values the second time. -/
theorem save_idempotent_witness :
    (((demo (fun _ => 0))._handle_save 64
        [⟨"ssid".toList, "HomeNet".toList, fun _ => 'j'⟩,
         ⟨"foo".toList, "bar".toList, fun _ => 'j'⟩])._handle_save 64
        [⟨"ssid".toList, "HomeNet".toList, fun _ => 'k'⟩,
         ⟨"foo".toList, "bar".toList, fun _ => 'k'⟩])._vals.map cstr
      = ((demo (fun _ => 0))._handle_save 64
        [⟨"ssid".toList, "HomeNet".toList, fun _ => 'j'⟩,
         ⟨"foo".toList, "bar".toList, fun _ => 'j'⟩])._vals.map cstr :=
  (save_idempotent 64 (demo (fun _ => 0))
    [⟨"ssid".toList, "HomeNet".toList, fun _ => 'j'⟩, ⟨"foo".toList, "bar".toList, fun _ => 'j'⟩]
    [⟨"ssid".toList, "HomeNet".toList, fun _ => 'k'⟩, ⟨"foo".toList, "bar".toList, fun _ => 'k'⟩]
    (List.Forall₂.cons ⟨rfl, rfl⟩ (List.Forall₂.cons ⟨rfl, rfl⟩ List.Forall₂.nil))).2.1

/-- C8. On an object that has not touched its store yet (so nothing was saved): for an
index in range `getval` returns the buffer that `get` of the store filled, holding the
stored string or, for a region never written, the default of the field; `getval(name)`
is `getval(find(name))`; once the cache is built, `getval` returns it whatever the medium
holds and changes nothing. With the default fields `getval("password")` is `getval(1)`
and on a blank medium `getval("ssid")` holds `MySSID`. -/
theorem getval_reflects_store (L : Nat) (s : Cfg) (hnone : s._nvm_ = none) :
    (∀ ix : Int, 0 ≤ ix → ix < s.store.count →
      (s.getval L ix).1
        = some (s.store.get (Nvm.new s._fields s.eeprom).2 ix (s.newBuffer L ix.toNat)) ∧
      ((s.getval L ix).1).map cstr
        = some (match (Nvm.new s._fields s.eeprom).2.regions.getD ix.toNat none with
                | some v => cstr v
                | none => cstr (s.store.fields.getD ix.toNat ⟨[], [], 0, []⟩).dft)) ∧
    (∀ p, (s.getvalName L p).1 = (s.getval L (s.store.find p)).1) ∧
    (∀ (ix jx : Int) (e2 : Eeprom),
      (({ (s.getval L ix).2 with eeprom := e2 } : Cfg).getval L jx).1 = (s.getval L jx).1 ∧
      ((s.getval L ix).2.getval L jx).1 = (s.getval L jx).1 ∧
      ((s.getval L ix).2.getval L jx).2 = (s.getval L ix).2) ∧
    (∀ b, ((demo b).getvalName L "password".toList).1 = ((demo b).getval L 1).1) ∧
    (∀ b, (((demo b).getvalName L "ssid".toList).1).map cstr = some "MySSID".toList) := by
  have part1 : ∀ (t : Cfg), t._nvm_ = none → ∀ ix : Int, 0 ≤ ix → ix < t.store.count →
      (t.getval L ix).1
        = some (t.store.get (Nvm.new t._fields t.eeprom).2 ix (t.newBuffer L ix.toNat)) ∧
      ((t.getval L ix).1).map cstr
        = some (match (Nvm.new t._fields t.eeprom).2.regions.getD ix.toNat none with
                | some v => cstr v
                | none => cstr (t.store.fields.getD ix.toNat ⟨[], [], 0, []⟩).dft) := by
    intro t ht ix h0 h1
    have h2 : (ix.toNat : Int) = ix := Int.toNat_of_nonneg h0
    have h3 := nvm_snd_vals_of_none L t ht ix.toNat (by omega)
    rw [h2] at h3
    have h4 : (t.getval L ix).1
        = some (t.store.get (Nvm.new t._fields t.eeprom).2 ix (t.newBuffer L ix.toNat)) := by
      rw [getval_fst, if_pos ⟨h0, h1⟩, h3]
    refine ⟨h4, ?_⟩
    rw [h4, Option.map_some', cstr_get _ _ _ _ ⟨h0, h1⟩]
  have part2 : ∀ (t : Cfg) p, (t.getvalName L p).1 = (t.getval L (t.store.find p)).1 := by
    intro t p
    rw [getvalName_eq, getval_nvm_snd]
  refine ⟨part1 s hnone, part2 s, ?_, ?_, ?_⟩
  · intro ix jx e2
    rw [getval_snd]
    refine ⟨?_, ?_, ?_⟩
    · have ht : ({ (s._nvm L).2 with eeprom := e2 } : Cfg)._nvm_ = some s.store :=
        nvm_snd_store L s
      rw [getval_of_some L _ s.store jx ht, getval_fst]
    · rw [getval_nvm_snd]
    · rw [getval_snd, nvm_snd_idem]
  · intro b
    rw [part2]
    rfl
  · intro b
    rw [part2]
    have hfind : (demo b).store.find "ssid".toList = 0 := rfl
    have hcount : (demo b).store.count = 2 := rfl
    rw [hfind, (part1 (demo b) rfl 0 (le_refl _) (by rw [hcount]; decide)).2]
    rfl

/-- Witness of C8: the demo object, whose store is not constructed at first. -/
theorem getval_reflects_store_witness :
    (((demo (fun _ => 0)).getvalName 64 "ssid".toList).1).map cstr = some "MySSID".toList ∧
    (((demo (fun _ => 0)).getval 64 1).1).map cstr = some "MyPassword".toList :=
  ⟨(getval_reflects_store 64 (demo (fun _ => 0)) rfl).2.2.2.2 (fun _ => 0),
   ((getval_reflects_store 64 (demo (fun _ => 0)) rfl).1 1 (by decide) (by decide)).2⟩

/-- C9. `getval(ix)` returns the null pointer exactly when `ix` lies outside of
`[0, count())`; otherwise it returns entry `ix` of the cache, which exists; and
`getval(name)` returns the null pointer for every name that `find` does not know. -/
theorem getval_null (L : Nat) (s : Cfg) (hinv : s.Inv) :
    (∀ ix : Int, (s.getval L ix).1 = none ↔ (ix < 0 ∨ s.store.count ≤ ix)) ∧
    (∀ ix : Int, 0 ≤ ix → ix < s.store.count →
      ∃ buf, (s.getval L ix).2._vals[ix.toNat]? = some buf ∧ (s.getval L ix).1 = some buf) ∧
    (∀ p, s.store.find p = -1 → (s.getvalName L p).1 = none) := by
  refine ⟨?_, ?_, ?_⟩
  · intro ix
    rw [getval_fst]
    split
    · simp only [reduceCtorEq, false_iff]
      omega
    · simp only [true_iff]
      omega
  · intro ix h0 h1
    obtain ⟨-, hlen, -⟩ := nvm_snd_inv L s hinv _ (nvm_snd_store L s)
    have hlt : ix.toNat < (s._nvm L).2._vals.length := by
      rw [hlen]
      simp only [Nvm.count] at h1
      omega
    refine ⟨(s._nvm L).2._vals[ix.toNat], ?_, ?_⟩
    · rw [getval_snd, List.getElem?_eq_getElem hlt]
    · rw [getval_fst, if_pos ⟨h0, h1⟩, List.getD_eq_getElem?_getD, List.getElem?_eq_getElem hlt]
      rfl
  · intro p hp
    rw [getvalName_eq, getval_nvm_snd, getval_fst, hp]
    simp

/-- Witness of C9: the demo object; index 2 is out of range and `foo` is not a field. -/
theorem getval_null_witness :
    ((demo (fun _ => 0)).getval 64 2).1 = none ∧
    ((demo (fun _ => 0)).getvalName 64 "foo".toList).1 = none :=
  ⟨((getval_null 64 (demo (fun _ => 0)) (by intro n h; cases h)).1 2).2 (by decide),
   (getval_null 64 (demo (fun _ => 0)) (by intro n h; cases h)).2.2 "foo".toList (by decide)⟩

/-- C10. Once `cfgmode()` is true it is true after every sequence of operations of the
session (check, setup, loop, getval and the four handlers, with any arguments, requests
and button readings); in particular `check` on a set flag returns at once and leaves
the flag set. -/
theorem cfgmode_sticky (L : Nat) (s : Cfg) (hs : s.cfgmode = true) :
    (∀ (ops : List Op) (t : Cfg), s.run L ops = some t → t.cfgmode = true) ∧
    (∀ (op : Op) (t : Cfg), s.step L op = some t → t.cfgmode = true) ∧
    (∀ cfgwait butpin : Int, ∃ t, s.check cfgwait butpin = some t ∧ t.cfgmode = true) := by
  refine ⟨fun ops t h => run_cfg L ops s t h hs, fun op t h => step_cfg L s t op h hs, ?_⟩
  intro cfgwait butpin
  have hc : ¬ ((0 : Int) < cfgwait ∧ ({ s with reads := s.reads + 1 } : Cfg)._cfg = false) := by
    rintro ⟨-, h⟩
    have : s._cfg = false := h
    rw [show s._cfg = true from hs] at this
    cases this
  refine ⟨{ s with reads := s.reads + 1 }, ?_, hs⟩
  unfold Cfg.check
  exact checkLoop_stop _ _ _ _ _ hc

/-- Witness of C10: from the demo object with the flag set, a second check, setup, a
tick that serves a save request and the tick that restarts leave the flag set. -/
theorem cfgmode_sticky_witness :
    ∃ t, demoPressed.run 64
        [.check 100 0, .setup,
         .loop (some ⟨"/save".toList, [⟨"ssid".toList, "HomeNet".toList, fun _ => 'j'⟩]⟩),
         .loop none] = some t ∧ t.cfgmode = true := by
  have hsome : (demoPressed.run 64
        [.check 100 0, .setup,
         .loop (some ⟨"/save".toList, [⟨"ssid".toList, "HomeNet".toList, fun _ => 'j'⟩]⟩),
         .loop none]).isSome = true := by decide
  obtain ⟨t, ht⟩ := Option.isSome_iff_exists.1 hsome
  exact ⟨t, ht, (cfgmode_sticky 64 demoPressed rfl).1 _ t ht⟩

/-- C11. A call of `loop` returns exactly when `_loop` is below `INT_MAX` and either the
restart flag is set or `setup` has created the servers; whenever it returns, `_loop` has
grown by exactly 1. With the restart flag set at entry the restart is invoked and no
request is served: no page is sent and store, cache and flags are as before. With the
flag clear one request is served, by `handleClient`, and the restart is not invoked in
that tick. The restart flag is set only by a request for `/save` or `/restart`: `check`,
`getval`, the config handler, the 404 handler and `setup` leave it unchanged. -/
theorem loop_tick (L : Nat) (s : Cfg) (req : Option Request) :
    ((s.loop L req).isSome = true ↔
      s._loop < INT_MAX ∧ (s._restart = true ∨ (s._dnssrv = true ∧ s._websrv = true))) ∧
    (∀ t, s.loop L req = some t →
      t._loop = s._loop + 1 ∧
      (s._restart = true →
        t.restarted = true ∧ t.served = s.served ∧ t.sent = s.sent ∧ t.eeprom = s.eeprom ∧
        t._nvm_ = s._nvm_ ∧ t._vals = s._vals ∧ t._cfg = s._cfg ∧ t._restart = s._restart) ∧
      (s._restart = false →
        t.served = s.served + 1 ∧ t.restarted = s.restarted ∧
        t = { (({ ({ s with _loop := s._loop + 1 } : Cfg).flash with
                  served := ({ s with _loop := s._loop + 1 } : Cfg).flash.served + 1 } :
                Cfg).handleClient L req) with
              millis := (({ ({ s with _loop := s._loop + 1 } : Cfg).flash with
                  served := ({ s with _loop := s._loop + 1 } : Cfg).flash.served + 1 } :
                Cfg).handleClient L req).millis + CFG_FLASH_LOOP }) ∧
      (t._restart = true →
        s._restart = true ∨
        ∃ r, req = some r ∧ (r.uri = "/save".toList ∨ r.uri = "/restart".toList))) ∧
    (∀ (cfgwait butpin : Int) (t : Cfg),
      s.check cfgwait butpin = some t → t._restart = s._restart) ∧
    (∀ ix : Int, (s.getval L ix).2._restart = s._restart) ∧
    (∀ name : List Char, (s.getvalName L name).2._restart = s._restart) ∧
    (s._handle_config L)._restart = s._restart ∧
    s._handle_404._restart = s._restart ∧
    s.setup._restart = s._restart := by
  refine ⟨loop_isSome L s req, ?_, ?_, ?_, ?_, handle_config_restart L s, rfl, rfl⟩
  · intro t ht
    obtain ⟨hl, hsrv⟩ := (loop_isSome L s req).1 (by rw [ht]; rfl)
    have hss := flash_sameSession ({ s with _loop := s._loop + 1 } : Cfg)
    obtain ⟨f1, -, f3, -⟩ := flash_pins ({ s with _loop := s._loop + 1 } : Cfg)
    have fsv := flash_served ({ s with _loop := s._loop + 1 } : Cfg)
    by_cases hr : s._restart = true
    · rw [loop_of_restart L s req hl hr] at ht
      cases ht
      refine ⟨hss.2.2.2.2.1, ?_, ?_, ?_⟩
      · intro _
        exact ⟨rfl, fsv, hss.2.2.2.2.2.2.2.2.2.2.2.2.2.2, hss.2.2.2.2.2.2.2.2.2.2.1,
          hss.2.2.2.2.2.2.2.2.1, hss.2.2.2.2.2.2.2.2.2.1, f1, hss.2.2.2.2.2.1⟩
      · intro h
        rw [hr] at h
        cases h
      · intro _
        exact Or.inl hr
    · have hr2 : s._restart = false := by simpa using hr
      have hd : s._dnssrv = true ∧ s._websrv = true := by
        rcases hsrv with h | h
        · exact absurd h hr
        · exact h
      have hform := loop_of_clear L s req hl hr2 hd.1 hd.2
      rw [hform] at ht
      have ht2 := Option.some.inj ht
      obtain ⟨k1, -, k3, k4, -⟩ := handleClient_sameTick L
        ({ ({ s with _loop := s._loop + 1 } : Cfg).flash with
            served := ({ s with _loop := s._loop + 1 } : Cfg).flash.served + 1 } : Cfg) req
      refine ⟨?_, ?_, ?_, ?_⟩
      · rw [← ht2]
        show (Cfg.handleClient L _ req)._loop = s._loop + 1
        rw [k1]
        exact hss.2.2.2.2.1
      · intro h
        exact absurd h hr
      · intro _
        refine ⟨?_, ?_, ht2.symm⟩
        · rw [← ht2]
          show (Cfg.handleClient L _ req).served = s.served + 1
          rw [k3]
          show ({ s with _loop := s._loop + 1 } : Cfg).flash.served + 1 = s.served + 1
          rw [fsv]
        · rw [← ht2]
          show (Cfg.handleClient L _ req).restarted = s.restarted
          rw [k4]
          exact hss.2.2.2.2.2.2.2.2.2.2.2.2.2.1
      · intro h
        rw [← ht2] at h
        rcases handleClient_restart L _ req h with h2 | h2
        · have h3 : ({ s with _loop := s._loop + 1 } : Cfg).flash._restart = true := h2
          rw [hss.2.2.2.2.2.1] at h3
          exact absurd h3 hr
        · exact Or.inr h2
  · intro cfgwait butpin t ht
    unfold Cfg.check at ht
    exact (checkLoop_sameSession _ _ _ _ _ _ ht).2.2.2.2.2.1
  · intro ix
    rw [getval_snd]
    exact (nvm_snd_frame L s).2.2.1
  · intro name
    rw [getvalName_eq, getval_snd, (nvm_snd_frame L _).2.2.1]
    exact (nvm_snd_frame L s).2.2.1

/-- Witness of C11: the demo object in configuration mode; its first tick serves a save
request and does not restart, the tick after it restarts and serves nothing. -/
theorem loop_tick_witness :
    ∃ t u, demoConfiguring.loop 64
        (some ⟨"/save".toList, [⟨"ssid".toList, "HomeNet".toList, fun _ => 'j'⟩]⟩) = some t ∧
      t._loop = 1 ∧ t.served = 1 ∧ t.restarted = false ∧ t._restart = true ∧
      t.loop 64 (some ⟨"/".toList, []⟩) = some u ∧
      u._loop = 2 ∧ u.served = 1 ∧ u.restarted = true ∧ u.sent = t.sent := by
  have h1 := loop_tick 64 demoConfiguring
    (some ⟨"/save".toList, [⟨"ssid".toList, "HomeNet".toList, fun _ => 'j'⟩]⟩)
  obtain ⟨t, ht⟩ := Option.isSome_iff_exists.1 (h1.1.2 ⟨by decide, Or.inr ⟨rfl, rfl⟩⟩)
  obtain ⟨a1, -, a3, -⟩ := h1.2.1 t ht
  obtain ⟨b1, b2, b3⟩ := a3 rfl
  have hres : t._restart = true := by
    rw [b3]
    rfl
  have h2 := loop_tick 64 t (some ⟨"/".toList, []⟩)
  have hlt : t._loop < INT_MAX := by
    rw [a1]
    decide
  obtain ⟨u, hu⟩ := Option.isSome_iff_exists.1 (h2.1.2 ⟨hlt, Or.inl hres⟩)
  obtain ⟨c1, c2, -, -⟩ := h2.2.1 u hu
  obtain ⟨d1, d2, d3, -⟩ := c2 hres
  refine ⟨t, u, ht, ?_, ?_, ?_, hres, hu, ?_, ?_, d1, d3⟩
  · rw [a1]; rfl
  · rw [b1]; rfl
  · rw [b2]; rfl
  · rw [c1, a1]; rfl
  · rw [d2, b1]; rfl

end CfgLib
